import Mathlib

/-!
# GraphLayouter

A shallow embedding of `src/lib/component/controller/helper/GraphLayouter.cpp`
and proofs about its layout routines.

Conventions of the embedding.

* `Id` is the unsigned integer type of token ids; it is embedded as `Nat`.
  Lines 243-244 of the source store a `tokenId` in an `unsigned int`, which is
  the identity on `Id = unsigned int`.
* `int` is the 32-bit signed integer.  The totals of `weightsMap` and the cells
  of the matrix are computed in `int`: every addition and negation on them is
  followed by `wrapInt`, the two's-complement wrap-around of the compiled
  program (the C++ standard leaves signed overflow undefined).  The pixel
  coordinates of the raster layout stay far below the `int` range for every
  vector whose size fits the loop counter, so they are plain `Int`.
* `std::vector<T>` is `List T`; an in-place write `v[i].f = e` is a functional
  update of position `i`.  Vector sizes are taken to fit the `unsigned int`
  loop counters, so counters are embedded as `Nat` and never wrap.
* `std::map<K, V>` is a finite partial function `K → Option V` together with
  the operations the source uses (`find`, `operator[]`, assignment through
  `operator[]`).  `operator[]` inserts a value-initialised entry when the key
  is absent, so every read through it returns the updated map as well.
-/

namespace GraphLayouter

/-! ## Data model -/

/-- Token identifiers (`Id` in the source, declared outside this file). -/
abbrev Id := Nat

/-- Modelled from the spec: a "2D coordinate" with integer components, the
`Vec2i` of the source, whose class is declared outside this file. -/
structure Vec2i where
  x : Int
  y : Int
deriving DecidableEq, Repr

/-- Modelled from the spec: the node record of the data model, with identity
`tokenId`, `topLevelAncestorId`, mutable `position` and the ordered sequence
`subNodes`.  These are the fields of `DummyNode` that `GraphLayouter.cpp` reads
or writes; the struct is declared outside this file. -/
structure DummyNode where
  tokenId : Id
  topLevelAncestorId : Id
  position : Vec2i
  subNodes : List DummyNode

/-- Modelled from the spec: the edge record of the data model, with `ownerId`,
`targetId` and a weight "accessed via a weight accessor"; `weight` is the value
returned by `getWeight()`.  The struct is declared outside this file. -/
structure DummyEdge where
  ownerId : Id
  targetId : Id
  weight : Int

/-! ## layoutSimpleRaster (source lines 22-42) -/

/-- Upward search for the least `w` with `n ≤ w * w`, starting at `w`. -/
def ceilSqrtFrom (n : Nat) : Nat → Nat → Nat
  | 0, w => w
  | fuel + 1, w => if n ≤ w * w then w else ceilSqrtFrom n fuel (w + 1)

/-- The value of `ceil(sqrt(n))` (source line 28), computed on the naturals. -/
def ceilSqrt (n : Nat) : Nat := ceilSqrtFrom n n 0

/-- In-place write `nodes[i].position = p`. -/
def setPosition : List DummyNode → Nat → Vec2i → List DummyNode
  | [], _, _ => []
  | n :: ns, 0, p => { n with position := p } :: ns
  | n :: ns, i + 1, p => n :: setPosition ns i p

/-- Loop-carried state of `layoutSimpleRaster`: the cursor and the node vector. -/
structure RasterState where
  x : Int
  y : Int
  nodes : List DummyNode

/-- One iteration of the loop at source lines 30-41, for index `i`. -/
def rasterStep (w : Nat) (st : RasterState) (i : Nat) : RasterState :=
  let y1 : Int := if 0 < i ∧ i % w = 0 then st.y + 150 else st.y
  let x1 : Int := if 0 < i ∧ i % w = 0 then 0 else st.x
  { x := x1 + 150, y := y1, nodes := setPosition st.nodes i ⟨x1, y1⟩ }

/-- Embedding of `GraphLayouter::layoutSimpleRaster`. -/
def layoutSimpleRaster (nodes : List DummyNode) : List DummyNode :=
  ((List.range nodes.length).foldl (rasterStep (ceilSqrt nodes.length))
    { x := 0, y := 0, nodes := nodes }).nodes

/-- The grid cell of index `i` in a raster of width `w`. -/
def rasterCell (w i : Nat) : Vec2i :=
  ⟨150 * ((i % w : Nat) : Int), 150 * ((i / w : Nat) : Int)⟩

/-! ## std::map -/

/-- A `std::map<K, V>`: a finite partial function from keys to values. -/
def StdMap (K V : Type) : Type := K → Option V

namespace StdMap

variable {K V : Type}

/-- The empty map. -/
def empty : StdMap K V := fun _ => none

/-- The entry of `m.find(k)`; `none` stands for `m.end()`. -/
def find (m : StdMap K V) (k : K) : Option V := m k

/-- The map after `m[k] = v`. -/
def assign [DecidableEq K] (m : StdMap K V) (k : K) (v : V) : StdMap K V :=
  fun k' => if k' = k then some v else m k'

/-- Reading `m[k]`: the value found, or a value-initialised entry `dflt` that is
inserted under `k`; the map after the access is returned as well. -/
def index [DecidableEq K] (dflt : V) (m : StdMap K V) (k : K) : V × StdMap K V :=
  match m k with
  | some v => (v, m)
  | none => (dflt, m.assign k dflt)

end StdMap

/-! ## buildLaplacianMatrix (source lines 161-261) -/

mutual
/-- Number of nodes in the hierarchy below and including a node. -/
def DummyNode.size : DummyNode → Nat
  | ⟨_, _, _, subs⟩ => 1 + sizeList subs
/-- Number of nodes in the hierarchies of a list of nodes. -/
def sizeList : List DummyNode → Nat
  | [] => 0
  | n :: ns => n.size + sizeList ns
end

/-- The loop at source lines 173-185 on the queue `remainingNodes` and the map
`nodesMap`; each iteration pushes the front node's sub-nodes, stores the front
node under its `tokenId` and pops it.  The first argument bounds the number of
iterations; the queue left over is returned with the map. -/
def flattenLoop : Nat → List DummyNode → StdMap Id DummyNode →
    List DummyNode × StdMap Id DummyNode
  | 0, queue, m => (queue, m)
  | _ + 1, [], m => ([], m)
  | fuel + 1, front :: rest, m =>
    flattenLoop fuel (rest ++ front.subNodes) (m.assign front.tokenId front)

/-- Source lines 166-185: the lookup from `tokenId` to node over the whole
hierarchy.  The iteration bound is the number of nodes of the hierarchy, which
`flattenLoop_sizeList` shows empties the queue. -/
def buildNodesMap (nodes : List DummyNode) : StdMap Id DummyNode :=
  (flattenLoop (sizeList nodes) nodes StdMap.empty).2

/-- The `int` that a 32-bit two's-complement machine holds for the mathematical
integer `z`: the representative of `z` modulo 2^32 in [-2^31, 2^31). -/
def wrapInt (z : Int) : Int :=
  (z + 2147483648) % 4294967296 - 2147483648

/-- The type of `weightsMap`. -/
abbrev WeightsMap : Type := StdMap (Id × Id) Int

/-- Source lines 205-211 (and their three repetitions): create the entry with 0
when `find` misses, then `weightsMap[key] += weightIncrement`, an `int`
addition. -/
def addWeight (wm : WeightsMap) (key : Id × Id) (weightIncrement : Int) : WeightsMap :=
  let wm1 : WeightsMap :=
    match wm.find key with
    | none => wm.assign key 0
    | some _ => wm
  let r := wm1.index 0 key
  r.2.assign key (wrapInt (r.1 + weightIncrement))

/-- State carried by the edge loop: both maps are written by `operator[]`. -/
structure AccState where
  nodesMap : StdMap Id DummyNode
  weightsMap : WeightsMap

/-- One iteration of the edge loop, source lines 190-236.  `dflt` is the
value-initialised `DummyNode` that `nodesMap[...]` inserts for an unknown id;
its constructor is declared outside this file, so it is a parameter. -/
def edgeStep (dflt : DummyNode) (st : AccState) (edge : DummyEdge) : AccState :=
  let r1 := st.nodesMap.index dflt edge.ownerId
  let ownerNode := r1.1
  let r2 := r1.2.index dflt edge.targetId
  let targetNode := r2.1
  if ownerNode.topLevelAncestorId ≠ targetNode.topLevelAncestorId then
    let weightIncrement := edge.weight
    let ownerId := ownerNode.topLevelAncestorId
    let targetId := targetNode.topLevelAncestorId
    let key : Id × Id := (ownerId, targetId)
    let inverseKey : Id × Id := (targetId, ownerId)
    let keyOwner : Id × Id := (ownerId, ownerId)
    let keyTarget : Id × Id := (targetId, targetId)
    let w1 := addWeight st.weightsMap key weightIncrement
    let w2 := addWeight w1 inverseKey weightIncrement
    let w3 := addWeight w2 keyOwner weightIncrement
    let w4 := addWeight w3 keyTarget weightIncrement
    { nodesMap := r2.2, weightsMap := w4 }
  else
    { nodesMap := r2.2, weightsMap := st.weightsMap }

/-- Modelled from the spec: the matrix primitive `MatrixDynamicBase<int>`, "a
dense, dynamically-sized numeric matrix with get/set-by-index"; its class is
declared outside this file.  `values x y` is the entry read by `getValue(x, y)`. -/
structure MatrixDynamicBase where
  columnsCount : Nat
  rowsCount : Nat
  values : Nat → Nat → Int

/-- Modelled from the spec: the matrix constructed by
`MatrixDynamicBase<int> matrix(columns, rows)`. -/
def MatrixDynamicBase.create (columns rows : Nat) : MatrixDynamicBase :=
  { columnsCount := columns, rowsCount := rows, values := fun _ _ => 0 }

/-- Modelled from the spec: `getValue(x, y)`, get-by-index. -/
def MatrixDynamicBase.getValue (m : MatrixDynamicBase) (x y : Nat) : Int :=
  m.values x y

/-- Modelled from the spec: `setValue(x, y, v)`, set-by-index; an index outside
the matrix writes nothing. -/
def MatrixDynamicBase.setValue (m : MatrixDynamicBase) (x y : Nat) (v : Int) :
    MatrixDynamicBase :=
  if x < m.columnsCount ∧ y < m.rowsCount then
    { m with values := fun a b => if a = x ∧ b = y then v else m.values a b }
  else m

/-- The `tokenId` read by `nodes[x].tokenId` (0 outside the vector, which the
emitting loops never reach). -/
def tokenIdAt (nodes : List DummyNode) (x : Nat) : Id :=
  match nodes[x]? with
  | some n => n.tokenId
  | none => 0

/-- State carried by the emitting loops: `weightsMap[key]` may insert entries. -/
structure EmitState where
  matrix : MatrixDynamicBase
  weightsMap : WeightsMap

/-- Body of the inner loop, source lines 243-256, for the pair `(x, y)`; the
negation `-weightsMap[key]` is an `int` negation. -/
def emitCell (nodes : List DummyNode) (x : Nat) (st : EmitState) (y : Nat) : EmitState :=
  let xNodeId := tokenIdAt nodes x
  let yNodeId := tokenIdAt nodes y
  let key : Id × Id := (xNodeId, yNodeId)
  if x = y then
    let r := st.weightsMap.index 0 key
    { matrix := st.matrix.setValue x y r.1, weightsMap := r.2 }
  else
    let r1 := st.weightsMap.index 0 key
    let m1 := st.matrix.setValue x y (wrapInt (-r1.1))
    let r2 := r1.2.index 0 key
    { matrix := m1.setValue y x (wrapInt (-r2.1)), weightsMap := r2.2 }

/-- The inner loop `for (y = x; y < nodes.size(); y++)`, source lines 241-257. -/
def emitRow (nodes : List DummyNode) (st : EmitState) (x : Nat) : EmitState :=
  (List.range' x (nodes.length - x)).foldl (emitCell nodes x) st

/-- Embedding of `GraphLayouter::buildLaplacianMatrix`. -/
def buildLaplacianMatrix (dflt : DummyNode) (nodes : List DummyNode)
    (edges : List DummyEdge) : MatrixDynamicBase :=
  let matrix := MatrixDynamicBase.create nodes.length nodes.length
  let nodesMap := buildNodesMap nodes
  let acc := edges.foldl (edgeStep dflt)
    { nodesMap := nodesMap, weightsMap := StdMap.empty }
  ((List.range nodes.length).foldl (emitRow nodes)
    { matrix := matrix, weightsMap := acc.weightsMap }).matrix

/-! ### Vocabulary for stating properties of the Laplacian -/

mutual
/-- All nodes of the hierarchy rooted at a node, the node itself included. -/
def DummyNode.flatten : DummyNode → List DummyNode
  | ⟨tid, anc, pos, subs⟩ => ⟨tid, anc, pos, subs⟩ :: flattenList subs
/-- All nodes reachable from a list of nodes, nested sub-nodes included. -/
def flattenList : List DummyNode → List DummyNode
  | [] => []
  | n :: ns => n.flatten ++ flattenList ns
end

/-- The node an id resolves to through `nodesMap[id]`. -/
def resolve (dflt : DummyNode) (nodesMap : StdMap Id DummyNode) (id : Id) : DummyNode :=
  (nodesMap id).getD dflt

/-- The `topLevelAncestorId` of the node an edge endpoint resolves to. -/
def ancestorOf (dflt : DummyNode) (nodes : List DummyNode) (id : Id) : Id :=
  (resolve dflt (buildNodesMap nodes) id).topLevelAncestorId

/-- An edge is an inter-group edge when its endpoints resolve to nodes with
different top-level ancestors. -/
def interGroup (dflt : DummyNode) (nodes : List DummyNode) (e : DummyEdge) : Prop :=
  ancestorOf dflt nodes e.ownerId ≠ ancestorOf dflt nodes e.targetId

instance (dflt : DummyNode) (nodes : List DummyNode) (e : DummyEdge) :
    Decidable (interGroup dflt nodes e) := by
  unfold interGroup; infer_instance

/-- Sum of the entries of row `y`: `getValue(x, y)` over all columns `x`. -/
def rowSum (m : MatrixDynamicBase) (y : Nat) : Int :=
  ((List.range m.columnsCount).map (fun x => m.getValue x y)).sum

/-- Sum of the entries of column `x`: `getValue(x, y)` over all rows `y`. -/
def columnSum (m : MatrixDynamicBase) (x : Nat) : Int :=
  ((List.range m.rowsCount).map (fun y => m.getValue x y)).sum

/-- The value read from `weightsMap[key]`: the entry, or 0 when there is none. -/
def weightOf (wm : WeightsMap) (key : Id × Id) : Int :=
  (wm key).getD 0

/-- What one edge adds to the running total under `key`, given the map `anc`
from an endpoint id to the top-level ancestor it resolves to: nothing for an
intra-group edge, otherwise the weight once for each of the four keys of
source lines 200-203 that equals `key`. -/
def edgeContribution (anc : Id → Id) (e : DummyEdge) (key : Id × Id) : Int :=
  if anc e.ownerId ≠ anc e.targetId then
    (if key = (anc e.ownerId, anc e.targetId) then e.weight else 0) +
    (if key = (anc e.targetId, anc e.ownerId) then e.weight else 0) +
    (if key = (anc e.ownerId, anc e.ownerId) then e.weight else 0) +
    (if key = (anc e.targetId, anc e.targetId) then e.weight else 0)
  else 0

/-- The mathematical total under `key` of all edges, before any wrap-around:
`weightsMap` holds `wrapInt` of it after the edge loop. -/
def groupWeight (dflt : DummyNode) (nodes : List DummyNode) (edges : List DummyEdge)
    (key : Id × Id) : Int :=
  (edges.map (fun e => edgeContribution (ancestorOf dflt nodes) e key)).sum

/-- The `int` total that `weightsMap` holds under `key` after the edge loop. -/
def storedTotal (dflt : DummyNode) (nodes : List DummyNode) (edges : List DummyEdge)
    (key : Id × Id) : Int :=
  wrapInt (groupWeight dflt nodes edges key)

/-- No `int` total can overflow: the absolute values of the edge weights sum to
less than 2^31. -/
def weightsFitInt (edges : List DummyEdge) : Prop :=
  (edges.map (fun e => e.weight.natAbs)).sum < 2147483648

instance (edges : List DummyEdge) : Decidable (weightsFitInt edges) := by
  unfold weightsFitInt; infer_instance

/-- The matrix determined entry by entry by the running totals `w` held by
`weightsMap`. -/
def matrixOfWeights (nodes : List DummyNode) (w : Id × Id → Int) : MatrixDynamicBase :=
  { columnsCount := nodes.length
    rowsCount := nodes.length
    values := fun a b =>
      if a < nodes.length ∧ b < nodes.length then
        if a = b then w (tokenIdAt nodes a, tokenIdAt nodes a)
        else wrapInt (-w (tokenIdAt nodes a, tokenIdAt nodes b))
      else 0 }

/-- The entry the emitting loops write at `(a, b)`: they visit the pair with the
smaller index first and read the total under that key. -/
def emittedEntry (nodes : List DummyNode) (w : Id × Id → Int) (a b : Nat) : Int :=
  if a = b then w (tokenIdAt nodes a, tokenIdAt nodes a)
  else if a < b then wrapInt (-w (tokenIdAt nodes a, tokenIdAt nodes b))
  else wrapInt (-w (tokenIdAt nodes b, tokenIdAt nodes a))

/-- An edge endpoint resolves to a group: some node of the flattened hierarchy
carries the id, and every node carrying it names a top-level node as its
top-level ancestor. -/
def resolvesToGroup (nodes : List DummyNode) (id : Id) : Prop :=
  (∃ n ∈ flattenList nodes, n.tokenId = id) ∧
  ∀ n ∈ flattenList nodes, n.tokenId = id →
    n.topLevelAncestorId ∈ nodes.map DummyNode.tokenId

instance (nodes : List DummyNode) (id : Id) : Decidable (resolvesToGroup nodes id) := by
  unfold resolvesToGroup; infer_instance

/-- The data-model invariants on the input of `buildLaplacianMatrix`: the
top-level tokenIds are pairwise distinct and both endpoints of every edge
resolve to a group. -/
def WellFormed (nodes : List DummyNode) (edges : List DummyEdge) : Prop :=
  (nodes.map DummyNode.tokenId).Nodup ∧
  ∀ e ∈ edges, resolvesToGroup nodes e.ownerId ∧ resolvesToGroup nodes e.targetId

instance (nodes : List DummyNode) (edges : List DummyEdge) :
    Decidable (WellFormed nodes edges) := by
  unfold WellFormed; infer_instance

/-- The group of an id, read from the hierarchy itself and not from `nodesMap`:
the `topLevelAncestorId` of the first node of the flattened hierarchy that
carries the id, `none` when no node does. -/
def groupOf (nodes : List DummyNode) (id : Id) : Option Id :=
  ((flattenList nodes).find? (fun d => d.tokenId == id)).map DummyNode.topLevelAncestorId

/-- An edge endpoint is resolvable: some node of the flattened hierarchy carries
the id, and the nodes carrying it (a single one when tokenIds are unique, as
the data model requires) have the same `topLevelAncestorId`. -/
def resolvable (nodes : List DummyNode) (id : Id) : Prop :=
  (∃ d ∈ flattenList nodes, d.tokenId = id) ∧
  ∀ d ∈ flattenList nodes, ∀ d' ∈ flattenList nodes,
    d.tokenId = id → d'.tokenId = id → d.topLevelAncestorId = d'.topLevelAncestorId

instance (nodes : List DummyNode) (id : Id) : Decidable (resolvable nodes id) := by
  unfold resolvable; infer_instance

/-- The reference Laplacian, stated from the node hierarchy and the edge list:
off the diagonal, the negated sum of the weights of all edges whose endpoints'
topLevelAncestorIds are, in either order, the tokenIds of top-level nodes `i`
and `j`; on the diagonal, the sum of the weights of all edges whose endpoints
have different topLevelAncestorIds, one of which is the tokenId of top-level
node `i`.  The sums are mathematical integers. -/
def referenceLaplacian (nodes : List DummyNode) (edges : List DummyEdge) (i j : Nat) : Int :=
  if i = j then
    ((edges.filter (fun e => decide
        (groupOf nodes e.ownerId ≠ groupOf nodes e.targetId ∧
          (groupOf nodes e.ownerId = some (tokenIdAt nodes i) ∨
            groupOf nodes e.targetId = some (tokenIdAt nodes i))))).map
      DummyEdge.weight).sum
  else
    -((edges.filter (fun e => decide
        ((groupOf nodes e.ownerId = some (tokenIdAt nodes i) ∧
            groupOf nodes e.targetId = some (tokenIdAt nodes j)) ∨
          (groupOf nodes e.ownerId = some (tokenIdAt nodes j) ∧
            groupOf nodes e.targetId = some (tokenIdAt nodes i))))).map
      DummyEdge.weight).sum

/-- Every top-level node is its own top-level ancestor. -/
def selfAncestors (nodes : List DummyNode) : Prop :=
  ∀ d ∈ nodes, d.topLevelAncestorId = d.tokenId

instance (nodes : List DummyNode) : Decidable (selfAncestors nodes) := by
  unfold selfAncestors; infer_instance

/-- The tokenIds are unique across the flattened hierarchy. -/
def uniqueTokenIds (nodes : List DummyNode) : Prop :=
  ((flattenList nodes).map DummyNode.tokenId).Nodup

instance (nodes : List DummyNode) : Decidable (uniqueTokenIds nodes) := by
  unfold uniqueTokenIds; infer_instance

/-- The data-model invariant on ancestors: every node reachable from the
top-level list, nested sub-nodes included, has a `topLevelAncestorId` equal to
the tokenId of one of the top-level nodes. -/
def ancestorsAreTopLevel (nodes : List DummyNode) : Prop :=
  ∀ d ∈ flattenList nodes, d.topLevelAncestorId ∈ nodes.map DummyNode.tokenId

instance (nodes : List DummyNode) : Decidable (ancestorsAreTopLevel nodes) := by
  unfold ancestorsAreTopLevel; infer_instance

/-! ## layoutSpectralPrototype (source lines 17-20 and 72-159) -/

/-- Finite `double` values, embedded in the rationals with their order; NaN and
the infinities are not modelled. -/
abbrev Double : Type := ℚ

/-- Embedding of `compareEigenvaluePairs` (source lines 17-20). -/
def compareEigenvaluePairs (p0 p1 : Nat × Double) : Bool :=
  decide (p0.2 > p1.2)

/-- Insertion of `a` into a sorted list: `a` passes the elements that `comp`
orders before it and stops in front of the first one that `comp` does not. -/
def orderedInsert {α : Type} (comp : α → α → Bool) (a : α) : List α → List α
  | [] => [a]
  | b :: l => if comp b a then b :: orderedInsert comp a l else a :: b :: l

/-- The result of `std::sort(first, last, comp)`: a rearrangement of the range in
which `comp` orders no element before an earlier one.  The standard leaves the
order of elements that `comp` does not separate unspecified; the embedding keeps
their input order, as the insertion sort that the library runs on short ranges
does.  For pairwise distinct keys every such rearrangement is the same
(`stdSort_unique`). -/
def stdSort {α : Type} (comp : α → α → Bool) : List α → List α
  | [] => []
  | a :: l => orderedInsert comp a (stdSort comp l)

/-- What the source reads from the `Eigen::EigenSolver` object: the dimensions
of `eigenvectors()`, its coefficients by linear index (real parts), the size of
`eigenvalues()` and its coefficients (real parts). -/
structure EigenSolver where
  eigenvectorsCols : Nat
  eigenvectorsRows : Nat
  eigenvectorsCoeff : Nat → Double
  eigenvaluesSize : Nat
  eigenvaluesCoeff : Nat → Double

/-- The numerical steps that the source delegates to code outside this file,
taken as parameters: `solve` stands for source lines 93-116 (from the Laplacian
to the solver of the normalised matrix), `embed` for lines 147-156 (conversion
to `float`, `Vec2f::normalize`, scaling by 600 and conversion to `int`). -/
structure Numerics where
  solve : MatrixDynamicBase → EigenSolver
  embed : Double → Double → Vec2i

/-- Source lines 118-127: `eigenVectors[i][j]` is coefficient `i * rows + j`. -/
def collectEigenVectors (solver : EigenSolver) : List (List Double) :=
  (List.range solver.eigenvectorsCols).map (fun i =>
    (List.range solver.eigenvectorsRows).map (fun j =>
      solver.eigenvectorsCoeff (i * solver.eigenvectorsRows + j)))

/-- Source lines 129-133: the pairs `(i, eigenvalue i)`. -/
def collectEigenValues (solver : EigenSolver) : List (Nat × Double) :=
  (List.range solver.eigenvaluesSize).map (fun i => (i, solver.eigenvaluesCoeff i))

/-- Source lines 139-140: `xIdx = eigenValues[size - 2].first` and
`yIdx = eigenValues[size - 3].first`; `none` when an index is outside the vector
(the unsigned subtraction wraps around below 3 elements). -/
def selectAxes (eigenValues : List (Nat × Double)) : Option (Nat × Nat) :=
  if 3 ≤ eigenValues.length then
    match eigenValues[eigenValues.length - 2]?, eigenValues[eigenValues.length - 3]? with
    | some px, some py => some (px.1, py.1)
    | _, _ => none
  else none

/-- Source lines 135-140: rank the pairs with `std::sort` and pick the axes. -/
def selectedAxes (solver : EigenSolver) : Option (Nat × Nat) :=
  selectAxes (stdSort compareEigenvaluePairs (collectEigenValues solver))

/-- Body of the loop at source lines 145-157 for index `i`; `none` when a vector
is read outside its bounds. -/
def placeNode (embed : Double → Double → Vec2i) (eigenVectors : List (List Double))
    (xIdx yIdx : Nat) (nodes : List DummyNode) (i : Nat) : Option (List DummyNode) :=
  match eigenVectors[xIdx]?, eigenVectors[yIdx]? with
  | some vx, some vy =>
    match vx[i]?, vy[i]? with
    | some xPos, some yPos => some (setPosition nodes i (embed xPos yPos))
    | _, _ => none
  | _, _ => none

/-- The loop at source lines 145-157 over the given indices. -/
def placeNodes (embed : Double → Double → Vec2i) (eigenVectors : List (List Double))
    (xIdx yIdx : Nat) : List Nat → List DummyNode → Option (List DummyNode)
  | [], nodes => some nodes
  | i :: rest, nodes =>
    match placeNode embed eigenVectors xIdx yIdx nodes i with
    | some nodes1 => placeNodes embed eigenVectors xIdx yIdx rest nodes1
    | none => none

/-- Embedding of `GraphLayouter::layoutSpectralPrototype`.  The result is the
node vector on return, or `none` when the run reads a vector outside its
bounds. -/
def layoutSpectralPrototype (num : Numerics) (dflt : DummyNode) (nodes : List DummyNode)
    (edges : List DummyEdge) : Option (List DummyNode) :=
  if nodes.length < 2 then some nodes
  else
    let laplacian := buildLaplacianMatrix dflt nodes edges
    if (List.range laplacian.columnsCount).any (fun i => laplacian.getValue i i == 0) then
      some (layoutSimpleRaster nodes)
    else
      let solver := num.solve laplacian
      let eigenVectors := collectEigenVectors solver
      if 0 < eigenVectors.length ∧ 3 ≤ (eigenVectors.headD []).length then
        match selectedAxes solver with
        | some (xIdx, yIdx) =>
          placeNodes num.embed eigenVectors xIdx yIdx (List.range nodes.length) nodes
        | none => none
      else some nodes

/-- Number of eigenvalues strictly greater than eigenvalue `i`: 1 for the
2nd-largest, 2 for the 3rd-largest. -/
def countGreater (solver : EigenSolver) (i : Nat) : Nat :=
  ((List.range solver.eigenvaluesSize).filter
    (fun k => decide (solver.eigenvaluesCoeff i < solver.eigenvaluesCoeff k))).length

/-- Number of eigenvalues strictly smaller than eigenvalue `i`: 1 for the
2nd-smallest, 2 for the 3rd-smallest. -/
def countSmaller (solver : EigenSolver) (i : Nat) : Nat :=
  ((List.range solver.eigenvaluesSize).filter
    (fun k => decide (solver.eigenvaluesCoeff k < solver.eigenvaluesCoeff i))).length

/-- The eigenvalues are pairwise distinct. -/
def distinctEigenvalues (solver : EigenSolver) : Prop :=
  ∀ i, i < solver.eigenvaluesSize → ∀ j, j < solver.eigenvaluesSize →
    i ≠ j → solver.eigenvaluesCoeff i ≠ solver.eigenvaluesCoeff j

instance (solver : EigenSolver) : Decidable (distinctEigenvalues solver) := by
  unfold distinctEigenvalues; infer_instance

/-- Top-level node `i` has no edge to another group: no inter-group edge has an
endpoint that resolves into the group of node `i`. -/
def isolatedGroup (dflt : DummyNode) (nodes : List DummyNode) (edges : List DummyEdge)
    (i : Nat) : Prop :=
  ∀ e ∈ edges, interGroup dflt nodes e →
    ancestorOf dflt nodes e.ownerId ≠ tokenIdAt nodes i ∧
    ancestorOf dflt nodes e.targetId ≠ tokenIdAt nodes i

instance (dflt : DummyNode) (nodes : List DummyNode) (edges : List DummyEdge) (i : Nat) :
    Decidable (isolatedGroup dflt nodes edges i) := by
  unfold isolatedGroup; infer_instance

/-- The contract of `Eigen::EigenSolver` on the `n x n` matrix built from the
Laplacian: `eigenvectors()` is `n x n` and `eigenvalues()` has `n` entries,
`n` being the dimension of the Laplacian.  Eigen is a library outside the
repository, so its contract is an assumption on the parameter `num`. -/
def eigenDimensionsMatch (num : Numerics) (laplacian : MatrixDynamicBase) : Prop :=
  (num.solve laplacian).eigenvectorsCols = laplacian.columnsCount ∧
  (num.solve laplacian).eigenvectorsRows = laplacian.columnsCount ∧
  (num.solve laplacian).eigenvaluesSize = laplacian.columnsCount

instance (num : Numerics) (laplacian : MatrixDynamicBase) :
    Decidable (eigenDimensionsMatch num laplacian) := by
  unfold eigenDimensionsMatch; infer_instance

/-- Component `i` of eigenvector `c`, the value `eigenVectors[c][i]` of source
lines 147-148. -/
def eigenvectorComponent (solver : EigenSolver) (c i : Nat) : Double :=
  solver.eigenvectorsCoeff (c * solver.eigenvectorsRows + i)

/-- A run returned a node list in which the first `n` nodes sit at the given
positions. -/
def nodesSitAt (result : Option (List DummyNode)) (n : Nat) (pos : Nat → Vec2i) : Prop :=
  match result with
  | none => False
  | some r => ∀ i, i < n → (r[i]?).map DummyNode.position = some (pos i)

instance (result : Option (List DummyNode)) (n : Nat) (pos : Nat → Vec2i) :
    Decidable (nodesSitAt result n pos) :=
  match result with
  | none => isFalse (fun h => h)
  | some r =>
    inferInstanceAs (Decidable (∀ i, i < n → (r[i]?).map DummyNode.position = some (pos i)))

/-- The layout uses eigenvector `xIdx` as X axis and eigenvector `yIdx` as Y
axis: it returns, and every node `i` sits at the point that lines 147-156 make
of component `i` of eigenvector `xIdx` and component `i` of eigenvector
`yIdx`. -/
def usesAxes (num : Numerics) (dflt : DummyNode) (nodes : List DummyNode)
    (edges : List DummyEdge) (xIdx yIdx : Nat) : Prop :=
  nodesSitAt (layoutSpectralPrototype num dflt nodes edges) nodes.length
    (fun i => num.embed
      (eigenvectorComponent (num.solve (buildLaplacianMatrix dflt nodes edges)) xIdx i)
      (eigenvectorComponent (num.solve (buildLaplacianMatrix dflt nodes edges)) yIdx i))

instance (num : Numerics) (dflt : DummyNode) (nodes : List DummyNode)
    (edges : List DummyEdge) (xIdx yIdx : Nat) :
    Decidable (usesAxes num dflt nodes edges xIdx yIdx) := by
  unfold usesAxes; infer_instance

/-- The Laplacian has no zero on its diagonal: the spectral path is taken. -/
def nonDegenerate (dflt : DummyNode) (nodes : List DummyNode) (edges : List DummyEdge) :
    Prop :=
  ∀ i, i < nodes.length → (buildLaplacianMatrix dflt nodes edges).getValue i i ≠ 0

instance (dflt : DummyNode) (nodes : List DummyNode) (edges : List DummyEdge) :
    Decidable (nonDegenerate dflt nodes edges) := by
  unfold nonDegenerate; infer_instance

/-! ## layoutSimpleRing (source lines 44-65) -/

/-- One iteration of the loop at source lines 54-62 for index `i`.  The point
`Vec2i(x, y)` of lines 56-59 is computed in `float` arithmetic from
`nodes.size()` and `i` alone; that computation is the parameter `ringPoint`,
applied to the size and the index. -/
def ringStep (ringPoint : Nat → Nat → Vec2i) (size : Nat) (nodes : List DummyNode)
    (i : Nat) : List DummyNode :=
  setPosition nodes i (ringPoint size i)

/-- Embedding of `GraphLayouter::layoutSimpleRing`. -/
def layoutSimpleRing (ringPoint : Nat → Nat → Vec2i) (nodes : List DummyNode) :
    List DummyNode :=
  if 1 ≤ nodes.length then
    let nodes0 := setPosition nodes 0 ⟨0, 0⟩
    if 1 < nodes.length then
      (List.range' 1 (nodes.length - 1)).foldl (ringStep ringPoint nodes.length) nodes0
    else nodes0
  else nodes

/-- The position the ring layout leaves at index `i` of `size` nodes. -/
def ringCell (ringPoint : Nat → Nat → Vec2i) (size i : Nat) : Vec2i :=
  if i = 0 then ⟨0, 0⟩ else ringPoint size i

/-- A node with its own position reset; everything else, the sub-nodes and
their positions included, is kept. -/
def erasePosition (d : DummyNode) : DummyNode :=
  { d with position := ⟨0, 0⟩ }

/-! ## Sample inputs -/

/-- A leaf node that is its own top-level ancestor, placed at `(7, 7)`. -/
def leafNode (id : Id) : DummyNode :=
  { tokenId := id, topLevelAncestorId := id, position := ⟨7, 7⟩, subNodes := [] }

/-- Five top-level leaf nodes with ids 1 to 5. -/
def fiveNodes : List DummyNode :=
  [leafNode 1, leafNode 2, leafNode 3, leafNode 4, leafNode 5]

/-- A value-initialised node: all ids zero, no sub-nodes. -/
def zeroNode : DummyNode :=
  { tokenId := 0, topLevelAncestorId := 0, position := ⟨0, 0⟩, subNodes := [] }

/-- Three top-level groups 1, 2, 3; group 1 contains the sub-node 11, which
contains the sub-node 111. -/
def threeGroups : List DummyNode :=
  [ { tokenId := 1, topLevelAncestorId := 1, position := ⟨7, 7⟩,
      subNodes :=
        [ { tokenId := 11, topLevelAncestorId := 1, position := ⟨8, 8⟩,
            subNodes :=
              [ { tokenId := 111, topLevelAncestorId := 1, position := ⟨9, 9⟩,
                  subNodes := [] } ] } ] },
    leafNode 2,
    leafNode 3 ]

/-- Edges between the three groups: 111 to 2 with weight 5, 2 to 3 with weight 1,
and 3 to 11 with weight 2. -/
def threeGroupsEdges : List DummyEdge :=
  [⟨111, 2, 5⟩, ⟨2, 3, 1⟩, ⟨3, 11, 2⟩]

/-- A solver result with the four eigenvalues 4, 3, 2, 1, in this order. -/
def fourEigenvalues : EigenSolver :=
  { eigenvectorsCols := 4
    eigenvectorsRows := 4
    eigenvectorsCoeff := fun _ => 0
    eigenvaluesSize := 4
    eigenvaluesCoeff := fun i => [4, 3, 2, 1].getD i 0 }

/-- Numerical collaborators that always return the solver `fourEigenvalues` and
place every node at `(1, 1)`. -/
def sampleNumerics : Numerics :=
  { solve := fun _ => fourEigenvalues
    embed := fun _ _ => ⟨1, 1⟩ }

/-- A stand-in for the `float` computation of the ring layout: index `i` of
`size` nodes is sent to `(size, i)`. -/
def sampleRingPoint (size i : Nat) : Vec2i :=
  ⟨(size : Int), (i : Int)⟩

/-- Numerical collaborators whose solver has the dimensions of its input, with
the eigenvalues 4, 3, 2, 1, 0, 0, ... and all eigenvector coefficients 0. -/
def fittingNumerics : Numerics :=
  { solve := fun laplacian =>
      { eigenvectorsCols := laplacian.columnsCount
        eigenvectorsRows := laplacian.columnsCount
        eigenvectorsCoeff := fun _ => 0
        eigenvaluesSize := laplacian.columnsCount
        eigenvaluesCoeff := fun i => [4, 3, 2, 1].getD i 0 }
    embed := fun _ _ => ⟨1, 1⟩ }

/-- Two singleton groups 1 and 2. -/
def twoNodes : List DummyNode :=
  [leafNode 1, leafNode 2]

/-- Two edges between the groups 1 and 2, each of weight 2^30: non-negative
`int` weights whose sum 2^31 does not fit an `int`. -/
def heavyEdges : List DummyEdge :=
  [⟨1, 2, 1073741824⟩, ⟨1, 2, 1073741824⟩]

/-- The innermost node of `threeGroups`: node 111, nested two levels below the
top-level node 1. -/
def innermostNode : DummyNode :=
  { tokenId := 111, topLevelAncestorId := 1, position := ⟨9, 9⟩, subNodes := [] }

/-- The mark of a coefficient: 1, 2 or 3 for these values, 0 otherwise. -/
def markOf (q : Double) : Int :=
  if q = 1 then 1 else if q = 2 then 2 else if q = 3 then 3 else 0

/-- Numerical collaborators that make the axes visible: the solver has the
dimensions of its input and the eigenvalues 4, 3, 2, 1; every component of
eigenvector `c` (for `c` below 4, on a 4 x 4 input) is `c`; and a node is placed
at the marks of its two coefficients. -/
def markedNumerics : Numerics :=
  { solve := fun laplacian =>
      { eigenvectorsCols := laplacian.columnsCount
        eigenvectorsRows := laplacian.columnsCount
        eigenvectorsCoeff := fun k =>
          [0, 0, 0, 0, 1, 1, 1, 1, 2, 2, 2, 2, 3, 3, 3, 3].getD k 0
        eigenvaluesSize := laplacian.columnsCount
        eigenvaluesCoeff := fun i => [4, 3, 2, 1].getD i 0 }
    embed := fun x y => ⟨markOf x, markOf y⟩ }

/-- Four singleton groups 1 to 4. -/
def fourNodes : List DummyNode :=
  [leafNode 1, leafNode 2, leafNode 3, leafNode 4]

/-- The path 1 - 2 - 3 - 4 with unit weights. -/
def pathEdges : List DummyEdge :=
  [⟨1, 2, 1⟩, ⟨2, 3, 1⟩, ⟨3, 4, 1⟩]

/-! ## Generic loop rules -/

/-- Invariant rule for a counting loop `for (k = 0; k < n; k++) s = f s k`. -/
theorem foldl_range_invariant {σ : Type} (P : Nat → σ → Prop) (f : σ → Nat → σ)
    (n : Nat) (s0 : σ) (h0 : P 0 s0)
    (hstep : ∀ k s, k < n → P k s → P (k + 1) (f s k)) :
    P n ((List.range n).foldl f s0) := by
  induction n with
  | zero => simpa using h0
  | succ m ih =>
    rw [List.range_succ, List.foldl_append]
    simp only [List.foldl_cons, List.foldl_nil]
    apply hstep m _ (Nat.lt_succ_self m)
    exact ih (fun k s hk hP => hstep k s (Nat.lt_succ_of_lt hk) hP)

/-- Invariant rule for a counting loop `for (k = a; k < a + len; k++) s = f s k`. -/
theorem foldl_range'_invariant {σ : Type} (P : Nat → σ → Prop) (f : σ → Nat → σ)
    (a len : Nat) (s0 : σ) (h0 : P a s0)
    (hstep : ∀ k s, a ≤ k → k < a + len → P k s → P (k + 1) (f s k)) :
    P (a + len) ((List.range' a len).foldl f s0) := by
  induction len with
  | zero => simpa using h0
  | succ m ih =>
    rw [List.range'_1_concat, List.foldl_append]
    simp only [List.foldl_cons, List.foldl_nil]
    have := ih (fun k s hak hk hP => hstep k s hak (by omega) hP)
    exact hstep (a + m) _ (by omega) (by omega) this

/-! ## Facts about `ceilSqrt` -/

theorem ceilSqrtFrom_spec (n : Nat) :
    ∀ fuel w, n ≤ (w + fuel) * (w + fuel) → (∀ v, v < w → v * v < n) →
      n ≤ ceilSqrtFrom n fuel w * ceilSqrtFrom n fuel w ∧
      ∀ v, v < ceilSqrtFrom n fuel w → v * v < n := by
  intro fuel
  induction fuel with
  | zero =>
    intro w hw hlow
    simpa [ceilSqrtFrom] using And.intro hw hlow
  | succ f ih =>
    intro w hw hlow
    unfold ceilSqrtFrom
    split_ifs with h
    · exact ⟨h, hlow⟩
    · apply ih (w + 1)
      · have : w + 1 + f = w + (f + 1) := by omega
        rw [this]; exact hw
      · intro v hv
        rcases Nat.lt_succ_iff_lt_or_eq.mp hv with h1 | h1
        · exact hlow v h1
        · subst h1; omega

/-- The search returns the least `w` with `n ≤ w * w`. -/
theorem ceilSqrt_spec (n : Nat) :
    n ≤ ceilSqrt n * ceilSqrt n ∧ ∀ v, v < ceilSqrt n → v * v < n := by
  unfold ceilSqrt
  apply ceilSqrtFrom_spec
  · simpa using Nat.le_mul_self n
  · intro v hv; omega

theorem ceilSqrt_le_iff (n v : Nat) : ceilSqrt n ≤ v ↔ n ≤ v * v := by
  constructor
  · intro h
    exact le_trans (ceilSqrt_spec n).1 (Nat.mul_le_mul h h)
  · intro h
    by_contra hlt
    have := (ceilSqrt_spec n).2 v (by omega)
    omega

/-- The natural-number search agrees with the real-number `ceil(sqrt(n))`. -/
theorem ceilSqrt_eq_ceil_sqrt (n : Nat) : ceilSqrt n = ⌈Real.sqrt (n : ℝ)⌉₊ := by
  apply le_antisymm
  · rw [ceilSqrt_le_iff]
    have h1 : Real.sqrt (n : ℝ) ≤ (⌈Real.sqrt (n : ℝ)⌉₊ : ℝ) := Nat.le_ceil _
    have h2 : (n : ℝ) ≤ (⌈Real.sqrt (n : ℝ)⌉₊ : ℝ) * (⌈Real.sqrt (n : ℝ)⌉₊ : ℝ) := by
      have h0 : (0 : ℝ) ≤ (n : ℝ) := Nat.cast_nonneg n
      calc (n : ℝ) = Real.sqrt n * Real.sqrt n := (Real.mul_self_sqrt h0).symm
        _ ≤ _ := mul_le_mul h1 h1 (Real.sqrt_nonneg _) (le_trans (Real.sqrt_nonneg _) h1)
    exact_mod_cast h2
  · rw [Nat.ceil_le]
    have h := (ceilSqrt_spec n).1
    have h' : (n : ℝ) ≤ (ceilSqrt n : ℝ) * (ceilSqrt n : ℝ) := by exact_mod_cast h
    rw [Real.sqrt_le_left (Nat.cast_nonneg _)]
    nlinarith [h']

theorem ceilSqrt_pos {n : Nat} (h : 0 < n) : 0 < ceilSqrt n := by
  by_contra h0
  have h1 : ceilSqrt n = 0 := by omega
  have := (ceilSqrt_spec n).1
  rw [h1] at this
  omega

theorem ceilSqrt_le_self (n : Nat) : ceilSqrt n ≤ n :=
  (ceilSqrt_le_iff n n).2 (Nat.le_mul_self n)

/-! ## Facts about `layoutSimpleRaster` -/

theorem length_setPosition (ns : List DummyNode) (i : Nat) (p : Vec2i) :
    (setPosition ns i p).length = ns.length := by
  induction ns generalizing i with
  | nil => simp [setPosition]
  | cons n ns ih =>
    cases i with
    | zero => simp [setPosition]
    | succ i => simp [setPosition, ih]

theorem getElem?_setPosition (ns : List DummyNode) (i j : Nat) (p : Vec2i) :
    (setPosition ns i p)[j]? =
      if j = i then (ns[j]?).map (fun n => { n with position := p }) else ns[j]? := by
  induction ns generalizing i j with
  | nil => simp [setPosition]
  | cons n ns ih =>
    cases i with
    | zero =>
      cases j with
      | zero => simp [setPosition]
      | succ j => simp [setPosition]
    | succ i =>
      cases j with
      | zero => simp [setPosition]
      | succ j => simp [setPosition, ih]

/-- Stepping the column counter when no row break happens. -/
theorem pred_mod_succ {w k : Nat} (hk : 0 < k) (h : k % w ≠ 0) :
    (k - 1) % w + 1 = k % w ∧ (k - 1) / w = k / w := by
  rcases Nat.eq_zero_or_pos w with hw | hw
  · subst hw
    simp only [Nat.mod_zero, Nat.div_zero, and_true]
    omega
  · have h1 := Nat.div_add_mod k w
    have h2 := Nat.mod_lt k hw
    have key : (k - 1) / w = k / w ∧ (k - 1) % w = k % w - 1 := by
      rw [Nat.div_mod_unique hw]
      constructor <;> omega
    omega

/-- Stepping the row counter at a row break. -/
theorem pred_div_succ {w k : Nat} (hk : 0 < k) (h : k % w = 0) :
    (k - 1) / w + 1 = k / w := by
  rcases Nat.eq_zero_or_pos w with hw | hw
  · subst hw
    simp only [Nat.mod_zero] at h
    omega
  · have h1 := Nat.div_add_mod k w
    have hq : 0 < k / w := by
      rcases Nat.eq_zero_or_pos (k / w) with h0 | h0
      · rw [h0] at h1; omega
      · exact h0
    have key : (k - 1) / w = k / w - 1 ∧ (k - 1) % w = w - 1 := by
      rw [Nat.div_mod_unique hw]
      have h3 : w * (k / w) = w * (k / w - 1) + w := by
        have : k / w = (k / w - 1) + 1 := by omega
        conv_lhs => rw [this]
        rw [Nat.mul_add, Nat.mul_one]
      constructor <;> omega
    omega

/-- The cursor held by the raster loop before it handles index `k`. -/
theorem rasterLoop_invariant (w : Nat) (nodes : List DummyNode) (n : Nat) :
    let st := (List.range n).foldl (rasterStep w) { x := 0, y := 0, nodes := nodes }
    (st.x = 150 * ((if n = 0 then 0 else (n - 1) % w + 1 : Nat) : Int) ∧
      st.y = 150 * ((if n = 0 then 0 else (n - 1) / w : Nat) : Int)) ∧
    ∀ i, st.nodes[i]? =
      if i < n then (nodes[i]?).map (fun d => { d with position := rasterCell w i })
      else nodes[i]? := by
  intro st
  refine foldl_range_invariant
    (fun k (s : RasterState) =>
      (s.x = 150 * ((if k = 0 then 0 else (k - 1) % w + 1 : Nat) : Int) ∧
        s.y = 150 * ((if k = 0 then 0 else (k - 1) / w : Nat) : Int)) ∧
      ∀ i, s.nodes[i]? =
        if i < k then (nodes[i]?).map (fun d => { d with position := rasterCell w i })
        else nodes[i]?)
    (rasterStep w) n _ ?_ ?_
  · simp
  · rintro k s - ⟨⟨hx, hy⟩, hn⟩
    have hx1 : (if 0 < k ∧ k % w = 0 then (0 : Int) else s.x) = 150 * ((k % w : Nat) : Int) := by
      split_ifs with hc
      · rw [hc.2]; simp
      · rw [hx]
        rcases Nat.eq_zero_or_pos k with h0 | h0
        · subst h0; simp
        · have hne : k % w ≠ 0 := fun h => hc ⟨h0, h⟩
          rw [if_neg (by omega), (pred_mod_succ h0 hne).1]
    have hy1 : (if 0 < k ∧ k % w = 0 then s.y + 150 else s.y) = 150 * ((k / w : Nat) : Int) := by
      split_ifs with hc
      · rw [hy, if_neg (by omega), ← pred_div_succ hc.1 hc.2]
        push_cast; ring
      · rw [hy]
        rcases Nat.eq_zero_or_pos k with h0 | h0
        · subst h0; simp
        · have hne : k % w ≠ 0 := fun h => hc ⟨h0, h⟩
          rw [if_neg (by omega), (pred_mod_succ h0 hne).2]
    refine ⟨⟨?_, ?_⟩, ?_⟩
    · show (if 0 < k ∧ k % w = 0 then (0 : Int) else s.x) + 150 = _
      rw [hx1]; simp only [Nat.add_sub_cancel, Nat.succ_ne_zero, if_false]
      push_cast; ring
    · show (if 0 < k ∧ k % w = 0 then s.y + 150 else s.y) = _
      rw [hy1]; simp
    · intro i
      show (setPosition s.nodes k
        ⟨if 0 < k ∧ k % w = 0 then (0 : Int) else s.x,
         if 0 < k ∧ k % w = 0 then s.y + 150 else s.y⟩)[i]? = _
      rw [getElem?_setPosition, hx1, hy1, hn i]
      by_cases hik : i = k
      · subst hik
        simp [rasterCell]
      · by_cases hlt : i < k
        · simp [hik, hlt, Nat.lt_succ_of_lt hlt]
        · have : ¬ i < k + 1 := by omega
          simp [hik, hlt, this]

/-- The node vector returned by `layoutSimpleRaster`, entry by entry. -/
theorem layoutSimpleRaster_getElem? (nodes : List DummyNode) (i : Nat) :
    (layoutSimpleRaster nodes)[i]? =
      (nodes[i]?).map
        (fun d => { d with position := rasterCell (ceilSqrt nodes.length) i }) := by
  have h := (rasterLoop_invariant (ceilSqrt nodes.length) nodes nodes.length).2 i
  unfold layoutSimpleRaster
  rw [h]
  split_ifs with hlt
  · rfl
  · have : nodes[i]? = none := by
      rw [List.getElem?_eq_none_iff]; omega
    simp [this]

theorem length_layoutSimpleRaster (nodes : List DummyNode) :
    (layoutSimpleRaster nodes).length = nodes.length := by
  apply le_antisymm
  · by_contra h
    have h1 : nodes.length < (layoutSimpleRaster nodes).length := by omega
    have h2 := layoutSimpleRaster_getElem? nodes nodes.length
    rw [List.getElem?_eq_getElem h1] at h2
    simp at h2
  · by_contra h
    have h1 : (layoutSimpleRaster nodes).length < nodes.length := by omega
    have h2 := layoutSimpleRaster_getElem? nodes (layoutSimpleRaster nodes).length
    rw [List.getElem?_eq_getElem h1] at h2
    simp at h2

/-! ## Facts about the maps -/

theorem StdMap.index_fst {K V : Type} [DecidableEq K] (dflt : V) (m : StdMap K V) (k : K) :
    (m.index dflt k).1 = (m k).getD dflt := by
  unfold StdMap.index
  cases h : m k <;> simp

theorem StdMap.index_snd_getD {K V : Type} [DecidableEq K] (dflt : V) (m : StdMap K V)
    (k k' : K) : ((m.index dflt k).2 k').getD dflt = (m k').getD dflt := by
  unfold StdMap.index
  cases h : m k with
  | some v => simp
  | none =>
    simp only [StdMap.assign]
    by_cases hk : k' = k
    · subst hk; simp [h]
    · simp [hk]

/-- Reading through `operator[]` does not change what later reads return. -/
theorem resolve_index (dflt : DummyNode) (m : StdMap Id DummyNode) (k : Id) :
    resolve dflt (m.index dflt k).2 = resolve dflt m := by
  funext id
  exact StdMap.index_snd_getD dflt m k id

theorem weightOf_index (wm : WeightsMap) (k : Id × Id) :
    weightOf (wm.index 0 k).2 = weightOf wm := by
  funext key
  exact StdMap.index_snd_getD 0 wm k key

theorem weightOf_empty (key : Id × Id) : weightOf StdMap.empty key = 0 := rfl

/-! ### 32-bit wrap-around -/

theorem wrapInt_of_range (z : Int) (h1 : -2147483648 ≤ z) (h2 : z < 2147483648) :
    wrapInt z = z := by
  unfold wrapInt
  omega

theorem wrapInt_zero : wrapInt 0 = 0 := by
  unfold wrapInt
  omega

theorem wrapInt_range (z : Int) : -2147483648 ≤ wrapInt z ∧ wrapInt z < 2147483648 := by
  unfold wrapInt
  omega

/-- Adding to a wrapped value and wrapping is wrapping the mathematical sum. -/
theorem wrapInt_add_wrapInt (a b : Int) : wrapInt (wrapInt a + b) = wrapInt (a + b) := by
  unfold wrapInt
  omega

/-- Negating a wrapped value and wrapping is wrapping the mathematical negation. -/
theorem wrapInt_neg_wrapInt (a : Int) : wrapInt (-wrapInt a) = wrapInt (-a) := by
  unfold wrapInt
  omega

/-- The total under `key` grows by the increment in `int` arithmetic, all other
totals are kept. -/
theorem weightOf_addWeight (wm : WeightsMap) (key : Id × Id) (inc : Int) (k : Id × Id) :
    weightOf (addWeight wm key inc) k =
      if k = key then wrapInt (weightOf wm k + inc) else weightOf wm k := by
  unfold addWeight weightOf StdMap.find StdMap.index
  cases h : wm key with
  | none =>
    by_cases hk : k = key
    · subst hk; simp [StdMap.assign, h]
    · simp [StdMap.assign, hk]
  | some v =>
    by_cases hk : k = key
    · subst hk; simp [StdMap.assign, h]
    · simp [StdMap.assign, hk, h]

/-- While every total is the wrapped value of a mathematical total `total`,
`addWeight` keeps it so, with the increment added under `key`. -/
theorem addWeight_wrapped (wm : WeightsMap) (total : Id × Id → Int)
    (h : ∀ k, weightOf wm k = wrapInt (total k)) (key : Id × Id) (inc : Int) (k : Id × Id) :
    weightOf (addWeight wm key inc) k =
      wrapInt (total k + if k = key then inc else 0) := by
  rw [weightOf_addWeight, h k]
  by_cases hk : k = key
  · rw [if_pos hk, if_pos hk, wrapInt_add_wrapInt]
  · rw [if_neg hk, if_neg hk, add_zero]

/-- One iteration of the edge loop: later lookups in `nodesMap` are unaffected
and every total grows, in `int` arithmetic, by the edge's contribution. -/
theorem edgeStep_spec (dflt : DummyNode) (st : AccState) (e : DummyEdge)
    (total : Id × Id → Int) (h : ∀ k, weightOf st.weightsMap k = wrapInt (total k)) :
    resolve dflt (edgeStep dflt st e).nodesMap = resolve dflt st.nodesMap ∧
    ∀ k, weightOf (edgeStep dflt st e).weightsMap k =
      wrapInt (total k +
        edgeContribution (fun id => (resolve dflt st.nodesMap id).topLevelAncestorId) e k) := by
  have ho : (st.nodesMap.index dflt e.ownerId).1 = resolve dflt st.nodesMap e.ownerId :=
    StdMap.index_fst _ _ _
  have ht : ((st.nodesMap.index dflt e.ownerId).2.index dflt e.targetId).1 =
      resolve dflt st.nodesMap e.targetId := by
    rw [StdMap.index_fst]
    exact congrFun (resolve_index dflt st.nodesMap e.ownerId) e.targetId
  constructor
  · unfold edgeStep
    simp only []
    split_ifs <;> simp only [resolve_index]
  · intro k
    unfold edgeStep edgeContribution
    simp only [ho, ht]
    by_cases hne : (resolve dflt st.nodesMap e.ownerId).topLevelAncestorId ≠
        (resolve dflt st.nodesMap e.targetId).topLevelAncestorId
    · simp only [if_pos hne]
      have h1 := addWeight_wrapped st.weightsMap total h
        ((resolve dflt st.nodesMap e.ownerId).topLevelAncestorId,
          (resolve dflt st.nodesMap e.targetId).topLevelAncestorId) e.weight
      have h2 := addWeight_wrapped _ _ h1
        ((resolve dflt st.nodesMap e.targetId).topLevelAncestorId,
          (resolve dflt st.nodesMap e.ownerId).topLevelAncestorId) e.weight
      have h3 := addWeight_wrapped _ _ h2
        ((resolve dflt st.nodesMap e.ownerId).topLevelAncestorId,
          (resolve dflt st.nodesMap e.ownerId).topLevelAncestorId) e.weight
      have h4 := addWeight_wrapped _ _ h3
        ((resolve dflt st.nodesMap e.targetId).topLevelAncestorId,
          (resolve dflt st.nodesMap e.targetId).topLevelAncestorId) e.weight
      rw [h4 k]
      congr 1
      ring
    · simp only [if_neg hne, add_zero]
      exact h k

/-- The edge loop: every total is the wrapped sum of the contributions of the
edges. -/
theorem edgeLoop_spec (dflt : DummyNode) (edges : List DummyEdge) (st : AccState)
    (total : Id × Id → Int) (h : ∀ k, weightOf st.weightsMap k = wrapInt (total k))
    (k : Id × Id) :
    weightOf (edges.foldl (edgeStep dflt) st).weightsMap k =
      wrapInt (total k +
        (edges.map (fun e => edgeContribution
          (fun id => (resolve dflt st.nodesMap id).topLevelAncestorId) e k)).sum) := by
  induction edges generalizing st total with
  | nil => simpa using h k
  | cons e es ih =>
    rw [List.foldl_cons,
      ih (edgeStep dflt st e) _ (edgeStep_spec dflt st e total h).2,
      (edgeStep_spec dflt st e total h).1]
    simp only [List.map_cons, List.sum_cons]
    congr 1
    ring

/-! ## Facts about the emitting loops -/

theorem setValue_columnsCount (m : MatrixDynamicBase) (x y : Nat) (v : Int) :
    (m.setValue x y v).columnsCount = m.columnsCount := by
  unfold MatrixDynamicBase.setValue
  split_ifs <;> rfl

theorem setValue_rowsCount (m : MatrixDynamicBase) (x y : Nat) (v : Int) :
    (m.setValue x y v).rowsCount = m.rowsCount := by
  unfold MatrixDynamicBase.setValue
  split_ifs <;> rfl

theorem setValue_values (m : MatrixDynamicBase) (x y : Nat) (v : Int)
    (hx : x < m.columnsCount) (hy : y < m.rowsCount) (a b : Nat) :
    (m.setValue x y v).values a b = if a = x ∧ b = y then v else m.values a b := by
  unfold MatrixDynamicBase.setValue
  rw [if_pos ⟨hx, hy⟩]

/-- One pass of the inner loop body writes the two mirrored cells of the pair
and nothing else. -/
theorem emitCell_spec (nodes : List DummyNode) (x y : Nat) (st : EmitState)
    (hc : st.matrix.columnsCount = nodes.length) (hr : st.matrix.rowsCount = nodes.length)
    (hxy : x ≤ y) (hy : y < nodes.length) :
    (emitCell nodes x st y).matrix.columnsCount = nodes.length ∧
    (emitCell nodes x st y).matrix.rowsCount = nodes.length ∧
    weightOf (emitCell nodes x st y).weightsMap = weightOf st.weightsMap ∧
    ∀ a b, (emitCell nodes x st y).matrix.values a b =
      if (a = x ∧ b = y) ∨ (a = y ∧ b = x) then
        emittedEntry nodes (weightOf st.weightsMap) a b
      else st.matrix.values a b := by
  have hx : x < nodes.length := lt_of_le_of_lt hxy hy
  by_cases hEq : x = y
  · subst hEq
    unfold emitCell
    simp only [if_true]
    refine ⟨?_, ?_, ?_, ?_⟩
    · rw [setValue_columnsCount, hc]
    · rw [setValue_rowsCount, hr]
    · exact weightOf_index _ _
    · intro a b
      rw [setValue_values _ _ _ _ (by omega) (by omega), StdMap.index_fst]
      by_cases hab : a = x ∧ b = x
      · obtain ⟨ha, hb⟩ := hab
        subst ha; subst hb
        simp [emittedEntry, weightOf]
      · have : ¬ ((a = x ∧ b = x) ∨ (a = x ∧ b = x)) := by tauto
        rw [if_neg hab, if_neg this]
  · have hlt : x < y := lt_of_le_of_ne hxy hEq
    unfold emitCell
    simp only [if_neg hEq]
    refine ⟨?_, ?_, ?_, ?_⟩
    · rw [setValue_columnsCount, setValue_columnsCount, hc]
    · rw [setValue_rowsCount, setValue_rowsCount, hr]
    · rw [weightOf_index, weightOf_index]
    · intro a b
      have hc1 : y < (st.matrix.setValue x y
          (wrapInt (-(st.weightsMap.index 0
            (tokenIdAt nodes x, tokenIdAt nodes y)).1))).columnsCount := by
        rw [setValue_columnsCount]; omega
      have hr1 : x < (st.matrix.setValue x y
          (wrapInt (-(st.weightsMap.index 0
            (tokenIdAt nodes x, tokenIdAt nodes y)).1))).rowsCount := by
        rw [setValue_rowsCount]; omega
      rw [setValue_values _ _ _ _ hc1 hr1, setValue_values _ _ _ _ (by omega) (by omega)]
      have h2 : ((st.weightsMap.index 0 (tokenIdAt nodes x, tokenIdAt nodes y)).2.index 0
          (tokenIdAt nodes x, tokenIdAt nodes y)).1 =
          weightOf st.weightsMap (tokenIdAt nodes x, tokenIdAt nodes y) := by
        rw [StdMap.index_fst]
        exact congrFun (weightOf_index st.weightsMap _) _
      have h1 : (st.weightsMap.index 0 (tokenIdAt nodes x, tokenIdAt nodes y)).1 =
          weightOf st.weightsMap (tokenIdAt nodes x, tokenIdAt nodes y) :=
        StdMap.index_fst _ _ _
      rw [h1, h2]
      by_cases hyx : a = y ∧ b = x
      · obtain ⟨ha, hb⟩ := hyx
        subst ha; subst hb
        have hn : ¬ a < b := by omega
        have hne : a ≠ b := by omega
        simp [emittedEntry, hn, hne]
      · rw [if_neg hyx]
        by_cases hxy2 : a = x ∧ b = y
        · obtain ⟨ha, hb⟩ := hxy2
          subst ha; subst hb
          simp [emittedEntry, hlt, hEq]
        · have : ¬ ((a = x ∧ b = y) ∨ (a = y ∧ b = x)) := by tauto
          rw [if_neg hxy2, if_neg this]

/-- The inner loop for row `x` fills the cells whose smaller index is `x`. -/
theorem emitRow_spec (nodes : List DummyNode) (w : Id × Id → Int) (x : Nat) (st : EmitState)
    (hx : x < nodes.length)
    (hc : st.matrix.columnsCount = nodes.length) (hr : st.matrix.rowsCount = nodes.length)
    (hw : weightOf st.weightsMap = w)
    (hv : ∀ a b, st.matrix.values a b =
      if a < nodes.length ∧ b < nodes.length ∧ (a < x ∨ b < x) then emittedEntry nodes w a b
      else 0) :
    (emitRow nodes st x).matrix.columnsCount = nodes.length ∧
    (emitRow nodes st x).matrix.rowsCount = nodes.length ∧
    weightOf (emitRow nodes st x).weightsMap = w ∧
    ∀ a b, (emitRow nodes st x).matrix.values a b =
      if a < nodes.length ∧ b < nodes.length ∧ (a < x + 1 ∨ b < x + 1) then
        emittedEntry nodes w a b
      else 0 := by
  have key := foldl_range'_invariant
    (fun y (s : EmitState) =>
      s.matrix.columnsCount = nodes.length ∧ s.matrix.rowsCount = nodes.length ∧
      weightOf s.weightsMap = w ∧
      ∀ a b, s.matrix.values a b =
        if a < nodes.length ∧ b < nodes.length ∧
            ((a < x ∨ b < x) ∨ (a = x ∧ b < y) ∨ (b = x ∧ a < y)) then
          emittedEntry nodes w a b
        else 0)
    (emitCell nodes x) x (nodes.length - x) st ?_ ?_
  · have hlen : x + (nodes.length - x) = nodes.length := by omega
    rw [hlen] at key
    obtain ⟨k1, k2, k3, k4⟩ := key
    refine ⟨k1, k2, k3, ?_⟩
    intro a b
    rw [show emitRow nodes st x = List.foldl (emitCell nodes x) st
      (List.range' x (nodes.length - x)) from rfl, k4 a b]
    apply if_congr _ rfl rfl
    constructor
    · rintro ⟨ha, hb, h⟩
      exact ⟨ha, hb, by omega⟩
    · rintro ⟨ha, hb, h⟩
      exact ⟨ha, hb, by omega⟩
  · refine ⟨hc, hr, hw, ?_⟩
    intro a b
    rw [hv a b]
    apply if_congr _ rfl rfl
    constructor
    · rintro ⟨ha, hb, h⟩
      exact ⟨ha, hb, Or.inl h⟩
    · rintro ⟨ha, hb, h⟩
      exact ⟨ha, hb, by omega⟩
  · rintro y s hxy hyn ⟨sc, sr, sw, sv⟩
    have hy : y < nodes.length := by omega
    obtain ⟨e1, e2, e3, e4⟩ := emitCell_spec nodes x y s sc sr hxy hy
    refine ⟨e1, e2, e3.trans sw, ?_⟩
    intro a b
    rw [e4 a b, sw, sv a b]
    by_cases hcell : (a = x ∧ b = y) ∨ (a = y ∧ b = x)
    · rw [if_pos hcell, if_pos]
      refine ⟨by omega, by omega, ?_⟩
      omega
    · rw [if_neg hcell]
      apply if_congr _ rfl rfl
      constructor
      · rintro ⟨ha, hb, h⟩
        exact ⟨ha, hb, by omega⟩
      · rintro ⟨ha, hb, h⟩
        refine ⟨ha, hb, ?_⟩
        rcases h with h | h | h
        · exact Or.inl h
        · rcases Nat.lt_succ_iff_lt_or_eq.mp h.2 with h' | h'
          · exact Or.inr (Or.inl ⟨h.1, h'⟩)
          · exact absurd (Or.inl ⟨h.1, h'⟩) hcell
        · rcases Nat.lt_succ_iff_lt_or_eq.mp h.2 with h' | h'
          · exact Or.inr (Or.inr ⟨h.1, h'⟩)
          · exact absurd (Or.inr ⟨h', h.1⟩) hcell

/-- The emitting loops fill every cell of the matrix from the totals. -/
theorem emitLoop_spec (nodes : List DummyNode) (wm : WeightsMap) :
    let st := (List.range nodes.length).foldl (emitRow nodes)
      { matrix := MatrixDynamicBase.create nodes.length nodes.length, weightsMap := wm }
    st.matrix.columnsCount = nodes.length ∧ st.matrix.rowsCount = nodes.length ∧
    ∀ a b, st.matrix.values a b =
      if a < nodes.length ∧ b < nodes.length then emittedEntry nodes (weightOf wm) a b
      else 0 := by
  intro st
  have key := foldl_range_invariant
    (fun x (s : EmitState) =>
      s.matrix.columnsCount = nodes.length ∧ s.matrix.rowsCount = nodes.length ∧
      weightOf s.weightsMap = weightOf wm ∧
      ∀ a b, s.matrix.values a b =
        if a < nodes.length ∧ b < nodes.length ∧ (a < x ∨ b < x) then
          emittedEntry nodes (weightOf wm) a b
        else 0)
    (emitRow nodes) nodes.length
    { matrix := MatrixDynamicBase.create nodes.length nodes.length, weightsMap := wm } ?_ ?_
  · obtain ⟨k1, k2, -, k4⟩ := key
    refine ⟨k1, k2, ?_⟩
    intro a b
    rw [k4 a b]
    apply if_congr _ rfl rfl
    constructor
    · rintro ⟨ha, hb, -⟩
      exact ⟨ha, hb⟩
    · rintro ⟨ha, hb⟩
      exact ⟨ha, hb, Or.inl ha⟩
  · refine ⟨rfl, rfl, rfl, ?_⟩
    intro a b
    have : ¬ (a < nodes.length ∧ b < nodes.length ∧ (a < 0 ∨ b < 0)) := by omega
    rw [if_neg this]
    rfl
  · rintro x s hx ⟨sc, sr, sw, sv⟩
    exact emitRow_spec nodes (weightOf wm) x s hx sc sr sw sv

/-! ## The matrix in closed form -/

theorem MatrixDynamicBase.eq_of_fields (m1 m2 : MatrixDynamicBase)
    (hc : m1.columnsCount = m2.columnsCount) (hr : m1.rowsCount = m2.rowsCount)
    (hv : ∀ a b, m1.values a b = m2.values a b) : m1 = m2 := by
  cases m1
  cases m2
  simp only [MatrixDynamicBase.mk.injEq] at *
  exact ⟨hc, hr, funext fun a => funext (hv a)⟩

/-- An edge adds the same amount under a key and under the mirrored key. -/
theorem edgeContribution_mirror (anc : Id → Id) (e : DummyEdge) (a b : Id) :
    edgeContribution anc e (a, b) = edgeContribution anc e (b, a) := by
  unfold edgeContribution
  simp only [Prod.mk.injEq]
  generalize anc e.ownerId = o
  generalize anc e.targetId = t
  by_cases hot : o ≠ t
  · rw [if_pos hot, if_pos hot]
    split_ifs <;> simp_all
  · rw [if_neg hot, if_neg hot]

theorem groupWeight_mirror (dflt : DummyNode) (nodes : List DummyNode)
    (edges : List DummyEdge) (a b : Id) :
    groupWeight dflt nodes edges (a, b) = groupWeight dflt nodes edges (b, a) := by
  unfold groupWeight
  congr 1
  apply List.map_congr_left
  intro e _
  exact edgeContribution_mirror _ e a b

theorem storedTotal_mirror (dflt : DummyNode) (nodes : List DummyNode)
    (edges : List DummyEdge) (a b : Id) :
    storedTotal dflt nodes edges (a, b) = storedTotal dflt nodes edges (b, a) := by
  unfold storedTotal
  rw [groupWeight_mirror]

/-- The totals held by `weightsMap` after the edge loop. -/
theorem weightOf_edgeLoop (dflt : DummyNode) (nodes : List DummyNode)
    (edges : List DummyEdge) :
    weightOf (edges.foldl (edgeStep dflt)
      { nodesMap := buildNodesMap nodes, weightsMap := StdMap.empty }).weightsMap =
      storedTotal dflt nodes edges := by
  funext k
  rw [edgeLoop_spec dflt edges _ (fun _ => 0) (fun k => by rw [weightOf_empty, wrapInt_zero])]
  simp only [zero_add]
  rfl

/-- Closed form of `buildLaplacianMatrix`: entry `(a, a)` is the stored total
under the key of node `a` paired with itself, entry `(a, b)` the `int` negation
of the stored total under the key pairing the two nodes. -/
theorem buildLaplacianMatrix_eq (dflt : DummyNode) (nodes : List DummyNode)
    (edges : List DummyEdge) :
    buildLaplacianMatrix dflt nodes edges =
      matrixOfWeights nodes (storedTotal dflt nodes edges) := by
  obtain ⟨hc, hr, hv⟩ := emitLoop_spec nodes (edges.foldl (edgeStep dflt)
    { nodesMap := buildNodesMap nodes, weightsMap := StdMap.empty }).weightsMap
  apply MatrixDynamicBase.eq_of_fields
  · exact hc
  · exact hr
  · intro a b
    show ((List.range nodes.length).foldl (emitRow nodes) _).matrix.values a b = _
    rw [hv a b, weightOf_edgeLoop]
    unfold matrixOfWeights emittedEntry
    simp only []
    by_cases hin : a < nodes.length ∧ b < nodes.length
    · rw [if_pos hin, if_pos hin]
      by_cases hab : a = b
      · rw [if_pos hab, if_pos hab]
      · rw [if_neg hab, if_neg hab]
        by_cases hlt : a < b
        · rw [if_pos hlt]
        · rw [if_neg hlt, storedTotal_mirror]
    · rw [if_neg hin, if_neg hin]

/-- The entries of the matrix in `int` arithmetic. -/
theorem buildLaplacianMatrix_getValue (dflt : DummyNode) (nodes : List DummyNode)
    (edges : List DummyEdge) (a b : Nat) (ha : a < nodes.length) (hb : b < nodes.length) :
    (buildLaplacianMatrix dflt nodes edges).getValue a b =
      if a = b then storedTotal dflt nodes edges (tokenIdAt nodes a, tokenIdAt nodes a)
      else wrapInt (-storedTotal dflt nodes edges (tokenIdAt nodes a, tokenIdAt nodes b)) := by
  rw [buildLaplacianMatrix_eq]
  unfold MatrixDynamicBase.getValue matrixOfWeights
  simp only []
  rw [if_pos ⟨ha, hb⟩]

/-- The four keys of one edge are pairwise different, so the edge adds its
weight under a key at most once. -/
theorem four_keys_once (o t a b : Nat) (w : Int) (hot : o ≠ t) :
    (if a = o ∧ b = t then w else 0) + (if a = t ∧ b = o then w else 0) +
        (if a = o ∧ b = o then w else 0) + (if a = t ∧ b = t then w else 0) = 0 ∨
    (if a = o ∧ b = t then w else 0) + (if a = t ∧ b = o then w else 0) +
        (if a = o ∧ b = o then w else 0) + (if a = t ∧ b = t then w else 0) = w := by
  split_ifs <;> omega

theorem edgeContribution_zero_or_weight (anc : Id → Id) (e : DummyEdge) (k : Id × Id) :
    edgeContribution anc e k = 0 ∨ edgeContribution anc e k = e.weight := by
  unfold edgeContribution
  by_cases hot : anc e.ownerId ≠ anc e.targetId
  · rw [if_pos hot]
    obtain ⟨a, b⟩ := k
    simp only [Prod.mk.injEq]
    exact four_keys_once _ _ a b _ hot
  · rw [if_neg hot]
    exact Or.inl rfl

/-- A mathematical total is bounded by the sum of the absolute weights. -/
theorem groupWeight_abs_le (dflt : DummyNode) (nodes : List DummyNode)
    (edges : List DummyEdge) (k : Id × Id) :
    -(Nat.cast (edges.map (fun e => e.weight.natAbs)).sum : Int) ≤
        groupWeight dflt nodes edges k ∧
      groupWeight dflt nodes edges k ≤
        (Nat.cast (edges.map (fun e => e.weight.natAbs)).sum : Int) := by
  unfold groupWeight
  induction edges with
  | nil => simp
  | cons e es ih =>
    simp only [List.map_cons, List.sum_cons, Nat.cast_add]
    rcases edgeContribution_zero_or_weight (ancestorOf dflt nodes) e k with h | h
    · rw [h]; omega
    · rw [h]; omega

/-- When the weights fit, the stored totals are the mathematical totals. -/
theorem storedTotal_of_fit (dflt : DummyNode) (nodes : List DummyNode)
    (edges : List DummyEdge) (hfit : weightsFitInt edges) (k : Id × Id) :
    storedTotal dflt nodes edges k = groupWeight dflt nodes edges k ∧
      wrapInt (-storedTotal dflt nodes edges k) = -groupWeight dflt nodes edges k := by
  have hb := groupWeight_abs_le dflt nodes edges k
  unfold weightsFitInt at hfit
  have h1 : storedTotal dflt nodes edges k = groupWeight dflt nodes edges k := by
    unfold storedTotal
    apply wrapInt_of_range <;> omega
  refine ⟨h1, ?_⟩
  rw [h1]
  apply wrapInt_of_range <;> omega

/-- The entries of the matrix when the weights fit: no wrap-around occurs. -/
theorem buildLaplacianMatrix_getValue_of_fit (dflt : DummyNode) (nodes : List DummyNode)
    (edges : List DummyEdge) (hfit : weightsFitInt edges)
    (a b : Nat) (ha : a < nodes.length) (hb : b < nodes.length) :
    (buildLaplacianMatrix dflt nodes edges).getValue a b =
      if a = b then groupWeight dflt nodes edges (tokenIdAt nodes a, tokenIdAt nodes a)
      else -groupWeight dflt nodes edges (tokenIdAt nodes a, tokenIdAt nodes b) := by
  rw [buildLaplacianMatrix_getValue dflt nodes edges a b ha hb,
    (storedTotal_of_fit dflt nodes edges hfit _).1,
    (storedTotal_of_fit dflt nodes edges hfit _).2]

theorem groupWeight_append (dflt : DummyNode) (nodes : List DummyNode)
    (es1 es2 : List DummyEdge) (k : Id × Id) :
    groupWeight dflt nodes (es1 ++ es2) k =
      groupWeight dflt nodes es1 k + groupWeight dflt nodes es2 k := by
  unfold groupWeight
  rw [List.map_append, List.sum_append]

theorem groupWeight_cons (dflt : DummyNode) (nodes : List DummyNode)
    (e : DummyEdge) (es : List DummyEdge) (k : Id × Id) :
    groupWeight dflt nodes (e :: es) k =
      edgeContribution (ancestorOf dflt nodes) e k + groupWeight dflt nodes es k := by
  unfold groupWeight
  rw [List.map_cons, List.sum_cons]

/-- Swapping the endpoints of an edge does not change what it contributes. -/
theorem edgeContribution_swap (anc : Id → Id) (e : DummyEdge) (k : Id × Id) :
    edgeContribution anc ⟨e.targetId, e.ownerId, e.weight⟩ k = edgeContribution anc e k := by
  unfold edgeContribution
  simp only []
  generalize anc e.ownerId = o
  generalize anc e.targetId = t
  by_cases hot : o ≠ t
  · rw [if_pos hot, if_pos (Ne.symm hot)]
    ring
  · rw [if_neg hot, if_neg (fun h => hot (Ne.symm h))]

/-! ## Facts about the flattening loop -/

theorem DummyNode.size_eq (n : DummyNode) : n.size = 1 + sizeList n.subNodes := by
  cases n
  simp [DummyNode.size]

theorem DummyNode.flatten_eq (n : DummyNode) : n.flatten = n :: flattenList n.subNodes := by
  cases n
  simp [DummyNode.flatten]

theorem sizeList_cons (n : DummyNode) (ns : List DummyNode) :
    sizeList (n :: ns) = 1 + sizeList n.subNodes + sizeList ns := by
  simp [sizeList, DummyNode.size_eq]

theorem sizeList_append (xs ys : List DummyNode) :
    sizeList (xs ++ ys) = sizeList xs + sizeList ys := by
  induction xs with
  | nil => simp [sizeList]
  | cons x xs ih =>
    rw [List.cons_append, sizeList_cons, sizeList_cons, ih]
    omega

theorem flattenList_cons (n : DummyNode) (ns : List DummyNode) :
    flattenList (n :: ns) = n :: (flattenList n.subNodes ++ flattenList ns) := by
  simp [flattenList, DummyNode.flatten_eq]

theorem flattenList_append (xs ys : List DummyNode) :
    flattenList (xs ++ ys) = flattenList xs ++ flattenList ys := by
  induction xs with
  | nil => simp [flattenList]
  | cons x xs ih =>
    rw [List.cons_append, flattenList_cons, flattenList_cons, ih]
    simp

/-- With at least as many iterations as there are nodes in the hierarchy of the
queue, the loop ends with an empty queue; what it stores comes from the queue's
hierarchy under the node's own id; every node of the hierarchy gets an entry;
and entries are never removed. -/
theorem flattenLoop_spec :
    ∀ (fuel : Nat) (queue : List DummyNode) (m : StdMap Id DummyNode),
      sizeList queue ≤ fuel →
      (flattenLoop fuel queue m).1 = [] ∧
      (∀ k n, (flattenLoop fuel queue m).2 k = some n →
        m k = some n ∨ (n ∈ flattenList queue ∧ n.tokenId = k)) ∧
      (∀ n ∈ flattenList queue, ∃ n', (flattenLoop fuel queue m).2 n.tokenId = some n') ∧
      (∀ k n, m k = some n → ∃ n', (flattenLoop fuel queue m).2 k = some n') := by
  intro fuel
  induction fuel with
  | zero =>
    intro queue m h
    cases queue with
    | nil =>
      refine ⟨rfl, fun k n hk => Or.inl hk, ?_, fun k n hk => ⟨n, hk⟩⟩
      intro n hn
      simp [flattenList] at hn
    | cons front rest =>
      rw [sizeList_cons] at h
      omega
  | succ f ih =>
    intro queue m h
    cases queue with
    | nil =>
      refine ⟨rfl, fun k n hk => Or.inl hk, ?_, fun k n hk => ⟨n, hk⟩⟩
      intro n hn
      simp [flattenList] at hn
    | cons front rest =>
      rw [sizeList_cons] at h
      have hsz : sizeList (rest ++ front.subNodes) ≤ f := by
        rw [sizeList_append]; omega
      obtain ⟨h1, h2, h3, h4⟩ :=
        ih (rest ++ front.subNodes) (m.assign front.tokenId front) hsz
      have hmem : ∀ n, n ∈ flattenList (rest ++ front.subNodes) →
          n ∈ flattenList (front :: rest) := by
        intro n hn
        rw [flattenList_append] at hn
        rw [flattenList_cons]
        simp only [List.mem_cons, List.mem_append] at hn ⊢
        tauto
      show (flattenLoop f (rest ++ front.subNodes) (m.assign front.tokenId front)).1 = [] ∧ _
      refine ⟨h1, ?_, ?_, ?_⟩
      · intro k n hk
        rcases h2 k n hk with hm | ⟨hn, hid⟩
        · unfold StdMap.assign at hm
          split_ifs at hm with hkf
          · right
            have : front = n := Option.some.inj hm
            subst this
            refine ⟨?_, hkf.symm⟩
            rw [flattenList_cons]
            exact List.mem_cons_self _ _
          · exact Or.inl hm
        · exact Or.inr ⟨hmem n hn, hid⟩
      · intro n hn
        rw [flattenList_cons] at hn
        simp only [List.mem_cons, List.mem_append] at hn
        rcases hn with hn | hn | hn
        · subst hn
          exact h4 n.tokenId n (by simp [StdMap.assign])
        · exact h3 n (by rw [flattenList_append]; exact List.mem_append_right _ hn)
        · exact h3 n (by rw [flattenList_append]; exact List.mem_append_left _ hn)
      · intro k n hk
        by_cases hkf : k = front.tokenId
        · exact h4 k front (by simp [StdMap.assign, hkf])
        · exact h4 k n (by simp [StdMap.assign, hkf, hk])

/-- The iteration bound used by `buildNodesMap` empties the queue. -/
theorem flattenLoop_sizeList (nodes : List DummyNode) :
    (flattenLoop (sizeList nodes) nodes StdMap.empty).1 = [] :=
  (flattenLoop_spec (sizeList nodes) nodes StdMap.empty (le_refl _)).1

/-- More iterations than the bound change nothing. -/
theorem flattenLoop_fuel (queue : List DummyNode) :
    ∀ (fuel : Nat) (m : StdMap Id DummyNode), sizeList queue ≤ fuel →
      flattenLoop fuel queue m = flattenLoop (sizeList queue) queue m := by
  generalize hs : sizeList queue = s
  induction s generalizing queue with
  | zero =>
    intro fuel m _
    cases queue with
    | nil => cases fuel <;> rfl
    | cons front rest => rw [sizeList_cons] at hs; omega
  | succ s ih =>
    intro fuel m hf
    cases queue with
    | nil => simp [sizeList] at hs
    | cons front rest =>
      rw [sizeList_cons] at hs
      have hsz : sizeList (rest ++ front.subNodes) = s := by
        rw [sizeList_append]; omega
      obtain ⟨f, rfl⟩ : ∃ f, fuel = f + 1 := ⟨fuel - 1, by omega⟩
      show flattenLoop f (rest ++ front.subNodes) _ = flattenLoop s (rest ++ front.subNodes) _
      exact ih (rest ++ front.subNodes) hsz f _ (by omega)

/-- An entry of `nodesMap` is a node of the hierarchy stored under its own id. -/
theorem buildNodesMap_some (nodes : List DummyNode) (k : Id) (n : DummyNode)
    (h : buildNodesMap nodes k = some n) : n ∈ flattenList nodes ∧ n.tokenId = k := by
  rcases (flattenLoop_spec (sizeList nodes) nodes StdMap.empty (le_refl _)).2.1 k n h with h0 | h0
  · simp [StdMap.empty] at h0
  · exact h0

/-- Every node of the hierarchy has an entry in `nodesMap` under its id. -/
theorem buildNodesMap_mem (nodes : List DummyNode) (n : DummyNode)
    (h : n ∈ flattenList nodes) : ∃ n', buildNodesMap nodes n.tokenId = some n' :=
  (flattenLoop_spec (sizeList nodes) nodes StdMap.empty (le_refl _)).2.2.1 n h

/-- An endpoint that resolves to a group resolves to a top-level tokenId. -/
theorem ancestorOf_mem (dflt : DummyNode) (nodes : List DummyNode) (id : Id)
    (h : resolvesToGroup nodes id) :
    ancestorOf dflt nodes id ∈ nodes.map DummyNode.tokenId := by
  obtain ⟨⟨n, hn, hid⟩, hall⟩ := h
  obtain ⟨n', hn'⟩ := buildNodesMap_mem nodes n hn
  rw [hid] at hn'
  obtain ⟨hmem, htid⟩ := buildNodesMap_some nodes id n' hn'
  unfold ancestorOf resolve
  rw [hn']
  exact hall n' hmem htid

/-- When all nodes of the hierarchy that share a tokenId agree on their
top-level ancestor, an id resolves to the ancestor of any node carrying it. -/
theorem ancestorOf_of_mem (dflt : DummyNode) (nodes : List DummyNode)
    (hu : ∀ a ∈ flattenList nodes, ∀ b ∈ flattenList nodes,
      a.tokenId = b.tokenId → a.topLevelAncestorId = b.topLevelAncestorId)
    (n : DummyNode) (hn : n ∈ flattenList nodes) :
    ancestorOf dflt nodes n.tokenId = n.topLevelAncestorId := by
  obtain ⟨n', hn'⟩ := buildNodesMap_mem nodes n hn
  obtain ⟨hmem, htid⟩ := buildNodesMap_some nodes n.tokenId n' hn'
  unfold ancestorOf resolve
  rw [hn']
  exact hu n' hmem n hn htid

/-- A resolvable id has the group that `nodesMap` resolves it to. -/
theorem groupOf_of_resolvable (dflt : DummyNode) (nodes : List DummyNode) (id : Id)
    (h : resolvable nodes id) : groupOf nodes id = some (ancestorOf dflt nodes id) := by
  obtain ⟨⟨d, hd, hid⟩, hagree⟩ := h
  obtain ⟨n', hn'⟩ := buildNodesMap_mem nodes d hd
  rw [hid] at hn'
  obtain ⟨hmem, htid⟩ := buildNodesMap_some nodes id n' hn'
  have hanc : ancestorOf dflt nodes id = n'.topLevelAncestorId := by
    unfold ancestorOf resolve
    rw [hn']
    rfl
  unfold groupOf
  cases hf : (flattenList nodes).find? (fun d => d.tokenId == id) with
  | none =>
    rw [List.find?_eq_none] at hf
    have := hf d hd
    simp [hid] at this
  | some d0 =>
    have hm : d0 ∈ flattenList nodes := List.mem_of_find?_eq_some hf
    have ht : d0.tokenId = id := by
      have := List.find?_some hf
      simpa using this
    rw [Option.map_some', hanc, hagree d0 hm n' hmem ht htid]

/-! ## Top-level indices and tokenIds -/

theorem tokenIdAt_getElem? (nodes : List DummyNode) (i : Nat) (hi : i < nodes.length) :
    (nodes.map DummyNode.tokenId)[i]? = some (tokenIdAt nodes i) := by
  unfold tokenIdAt
  rw [List.getElem?_map, List.getElem?_eq_getElem hi]
  rfl

/-- Distinct top-level tokenIds: the id determines the index. -/
theorem tokenIdAt_inj (nodes : List DummyNode) (hnd : (nodes.map DummyNode.tokenId).Nodup)
    (i j : Nat) (hi : i < nodes.length) (hj : j < nodes.length)
    (h : tokenIdAt nodes i = tokenIdAt nodes j) : i = j := by
  have hi' : i < (nodes.map DummyNode.tokenId).length := by simpa using hi
  have hj' : j < (nodes.map DummyNode.tokenId).length := by simpa using hj
  have e1 := tokenIdAt_getElem? nodes i hi
  have e2 := tokenIdAt_getElem? nodes j hj
  rw [List.getElem?_eq_getElem hi'] at e1
  rw [List.getElem?_eq_getElem hj'] at e2
  have : (nodes.map DummyNode.tokenId)[i] = (nodes.map DummyNode.tokenId)[j] := by
    rw [Option.some.inj e1, Option.some.inj e2, h]
  exact (hnd.getElem_inj_iff).1 this

theorem exists_index_of_mem (nodes : List DummyNode) (a : Id)
    (h : a ∈ nodes.map DummyNode.tokenId) :
    ∃ j, j < nodes.length ∧ tokenIdAt nodes j = a := by
  obtain ⟨j, hj⟩ := List.mem_iff_getElem?.mp h
  have hlt : j < nodes.length := by
    by_contra hge
    have : (nodes.map DummyNode.tokenId)[j]? = none := by
      rw [List.getElem?_eq_none_iff]; simp; omega
    rw [this] at hj
    exact Option.noConfusion hj
  refine ⟨j, hlt, ?_⟩
  rw [tokenIdAt_getElem? nodes j hlt] at hj
  exact Option.some.inj hj

theorem sum_map_range (f : Nat → Int) (n : Nat) :
    ((List.range n).map f).sum = ∑ x in Finset.range n, f x := by
  induction n with
  | zero => simp
  | succ m ih =>
    rw [List.range_succ, List.map_append, List.sum_append, ih, Finset.sum_range_succ]
    simp

theorem sum_filter_weight (p : DummyEdge → Bool) (edges : List DummyEdge) :
    ((edges.filter p).map DummyEdge.weight).sum =
      (edges.map (fun e => if p e then e.weight else 0)).sum := by
  induction edges with
  | nil => rfl
  | cons e es ih =>
    rw [List.filter_cons]
    cases hp : p e
    · simp [hp, ih]
    · simp [hp, ih]

/-! ## Row sums and the reference Laplacian -/

theorem buildLaplacianMatrix_getValue_comm (dflt : DummyNode) (nodes : List DummyNode)
    (edges : List DummyEdge) (i j : Nat) (hi : i < nodes.length) (hj : j < nodes.length) :
    (buildLaplacianMatrix dflt nodes edges).getValue i j =
      (buildLaplacianMatrix dflt nodes edges).getValue j i := by
  rw [buildLaplacianMatrix_getValue dflt nodes edges i j hi hj,
    buildLaplacianMatrix_getValue dflt nodes edges j i hj hi]
  by_cases hij : i = j
  · subst hij; rfl
  · rw [if_neg hij, if_neg (fun h => hij h.symm), storedTotal_mirror]

/-- The four keys of one edge, compared with a key off the diagonal. -/
theorem four_keys_offDiagonal (o t a b : Nat) (w : Int) (hab : a ≠ b) :
    (if o ≠ t then
      (if a = o ∧ b = t then w else 0) + (if a = t ∧ b = o then w else 0) +
        (if a = o ∧ b = o then w else 0) + (if a = t ∧ b = t then w else 0)
      else 0) =
    if (o = a ∧ t = b) ∨ (o = b ∧ t = a) then w else 0 := by
  split_ifs <;> omega

/-- The four keys of one edge, compared with a key on the diagonal. -/
theorem four_keys_diagonal (o t a : Nat) (w : Int) :
    (if o ≠ t then
      (if a = o ∧ a = t then w else 0) + (if a = t ∧ a = o then w else 0) +
        (if a = o ∧ a = o then w else 0) + (if a = t ∧ a = t then w else 0)
      else 0) =
    if o ≠ t ∧ (o = a ∨ t = a) then w else 0 := by
  split_ifs <;> omega

/-- Off the diagonal an edge contributes its weight exactly when its endpoints'
ancestors are the two ids of the key, in either order. -/
theorem edgeContribution_offDiagonal (anc : Id → Id) (e : DummyEdge) (a b : Id) (hab : a ≠ b) :
    edgeContribution anc e (a, b) =
      if (anc e.ownerId = a ∧ anc e.targetId = b) ∨ (anc e.ownerId = b ∧ anc e.targetId = a)
      then e.weight else 0 := by
  unfold edgeContribution
  simp only [Prod.mk.injEq]
  exact four_keys_offDiagonal _ _ a b _ hab

/-- On the diagonal an edge contributes its weight exactly when it is an
inter-group edge with one endpoint in the group of the key. -/
theorem edgeContribution_diagonal (anc : Id → Id) (e : DummyEdge) (a : Id) :
    edgeContribution anc e (a, a) =
      if anc e.ownerId ≠ anc e.targetId ∧ (anc e.ownerId = a ∨ anc e.targetId = a)
      then e.weight else 0 := by
  unfold edgeContribution
  simp only [Prod.mk.injEq]
  exact four_keys_diagonal _ _ a _

/-- What one edge contributes to row `y`, summed over the row, cancels. -/
theorem edge_row_sum_zero (nodes : List DummyNode)
    (hnd : (nodes.map DummyNode.tokenId).Nodup) (anc : Id → Id) (e : DummyEdge)
    (ho : anc e.ownerId ∈ nodes.map DummyNode.tokenId)
    (ht : anc e.targetId ∈ nodes.map DummyNode.tokenId)
    (y : Nat) (hy : y < nodes.length) :
    ∑ x in Finset.range nodes.length,
      (if x = y then edgeContribution anc e (tokenIdAt nodes y, tokenIdAt nodes y)
        else -edgeContribution anc e (tokenIdAt nodes x, tokenIdAt nodes y)) = 0 := by
  obtain ⟨jo, hjo, ejo⟩ := exists_index_of_mem nodes _ ho
  obtain ⟨jt, hjt, ejt⟩ := exists_index_of_mem nodes _ ht
  have io : ∀ z, z < nodes.length → (anc e.ownerId = tokenIdAt nodes z ↔ z = jo) := by
    intro z hz
    constructor
    · intro h; exact tokenIdAt_inj nodes hnd z jo hz hjo (h.symm.trans ejo.symm)
    · intro h; rw [h, ejo]
  have it : ∀ z, z < nodes.length → (anc e.targetId = tokenIdAt nodes z ↔ z = jt) := by
    intro z hz
    constructor
    · intro h; exact tokenIdAt_inj nodes hnd z jt hz hjt (h.symm.trans ejt.symm)
    · intro h; rw [h, ejt]
  have hot : anc e.ownerId ≠ anc e.targetId ↔ jo ≠ jt := by
    rw [← ejo, ← ejt]
    constructor
    · intro h hj; exact h (by rw [hj])
    · intro h hj; exact h (tokenIdAt_inj nodes hnd jo jt hjo hjt hj)
  have hpt : ∀ x ∈ Finset.range nodes.length,
      (if x = y then edgeContribution anc e (tokenIdAt nodes y, tokenIdAt nodes y)
        else -edgeContribution anc e (tokenIdAt nodes x, tokenIdAt nodes y)) =
      (if x = y then (if jo ≠ jt ∧ (y = jo ∨ y = jt) then e.weight else 0) else 0) +
      ((if x = jo then (if y = jt ∧ jo ≠ y then -e.weight else 0) else 0) +
       (if x = jt then (if y = jo ∧ jt ≠ y then -e.weight else 0) else 0)) := by
    intro x hx
    have hx' : x < nodes.length := Finset.mem_range.mp hx
    by_cases hxy : x = y
    · subst hxy
      rw [if_pos rfl, if_pos rfl, edgeContribution_diagonal]
      simp only [hot, io x hx', it x hx']
      split_ifs <;> omega
    · have hne : tokenIdAt nodes x ≠ tokenIdAt nodes y :=
        fun h => hxy (tokenIdAt_inj nodes hnd x y hx' hy h)
      rw [if_neg hxy, if_neg hxy, edgeContribution_offDiagonal anc e _ _ hne]
      simp only [io x hx', io y hy, it x hx', it y hy]
      split_ifs <;> omega
  rw [Finset.sum_congr rfl hpt, Finset.sum_add_distrib, Finset.sum_add_distrib,
    Finset.sum_ite_eq', Finset.sum_ite_eq', Finset.sum_ite_eq']
  simp only [Finset.mem_range, hy, hjo, hjt, if_true]
  split_ifs <;> omega

/-- Row sums of the closed form vanish when every edge resolves to groups. -/
theorem groupWeight_row_sum_zero (dflt : DummyNode) (nodes : List DummyNode)
    (hnd : (nodes.map DummyNode.tokenId).Nodup) (y : Nat) (hy : y < nodes.length) :
    ∀ edges : List DummyEdge,
      (∀ e ∈ edges, resolvesToGroup nodes e.ownerId ∧ resolvesToGroup nodes e.targetId) →
      ∑ x in Finset.range nodes.length,
        (if x = y then groupWeight dflt nodes edges (tokenIdAt nodes y, tokenIdAt nodes y)
          else -groupWeight dflt nodes edges (tokenIdAt nodes x, tokenIdAt nodes y)) = 0 := by
  intro edges
  induction edges with
  | nil =>
    intro _
    apply Finset.sum_eq_zero
    intro x _
    simp [groupWeight]
  | cons e es ih =>
    intro hres
    have he := hres e (List.mem_cons_self _ _)
    have hes := ih (fun e' he' => hres e' (List.mem_cons_of_mem _ he'))
    have hedge := edge_row_sum_zero nodes hnd (ancestorOf dflt nodes) e
      (ancestorOf_mem dflt nodes _ he.1) (ancestorOf_mem dflt nodes _ he.2) y hy
    have hsplit : ∀ x ∈ Finset.range nodes.length,
        (if x = y then groupWeight dflt nodes (e :: es) (tokenIdAt nodes y, tokenIdAt nodes y)
          else -groupWeight dflt nodes (e :: es) (tokenIdAt nodes x, tokenIdAt nodes y)) =
        (if x = y then
            edgeContribution (ancestorOf dflt nodes) e (tokenIdAt nodes y, tokenIdAt nodes y)
          else -edgeContribution (ancestorOf dflt nodes) e
            (tokenIdAt nodes x, tokenIdAt nodes y)) +
        (if x = y then groupWeight dflt nodes es (tokenIdAt nodes y, tokenIdAt nodes y)
          else -groupWeight dflt nodes es (tokenIdAt nodes x, tokenIdAt nodes y)) := by
      intro x _
      rw [groupWeight_cons, groupWeight_cons]
      split_ifs <;> ring
    rw [Finset.sum_congr rfl hsplit, Finset.sum_add_distrib, hedge, hes, add_zero]

/-- The row sum when the weights fit, in terms of the mathematical totals. -/
theorem rowSum_buildLaplacianMatrix (dflt : DummyNode) (nodes : List DummyNode)
    (edges : List DummyEdge) (hfit : weightsFitInt edges) (y : Nat) (hy : y < nodes.length) :
    rowSum (buildLaplacianMatrix dflt nodes edges) y =
      ∑ x in Finset.range nodes.length,
        (if x = y then groupWeight dflt nodes edges (tokenIdAt nodes y, tokenIdAt nodes y)
          else -groupWeight dflt nodes edges (tokenIdAt nodes x, tokenIdAt nodes y)) := by
  unfold rowSum
  rw [sum_map_range]
  have hc : (buildLaplacianMatrix dflt nodes edges).columnsCount = nodes.length := by
    rw [buildLaplacianMatrix_eq]; rfl
  rw [hc]
  apply Finset.sum_congr rfl
  intro x hx
  rw [buildLaplacianMatrix_getValue_of_fit dflt nodes edges hfit x y
    (Finset.mem_range.mp hx) hy]
  by_cases hxy : x = y
  · subst hxy; rfl
  · rw [if_neg hxy, if_neg hxy]

theorem columnSum_eq_rowSum (dflt : DummyNode) (nodes : List DummyNode)
    (edges : List DummyEdge) (y : Nat) (hy : y < nodes.length) :
    columnSum (buildLaplacianMatrix dflt nodes edges) y =
      rowSum (buildLaplacianMatrix dflt nodes edges) y := by
  unfold columnSum rowSum
  have hc : (buildLaplacianMatrix dflt nodes edges).columnsCount = nodes.length := by
    rw [buildLaplacianMatrix_eq]; rfl
  have hr : (buildLaplacianMatrix dflt nodes edges).rowsCount = nodes.length := by
    rw [buildLaplacianMatrix_eq]; rfl
  rw [hc, hr]
  congr 1
  apply List.map_congr_left
  intro x hx
  exact buildLaplacianMatrix_getValue_comm dflt nodes edges y x hy (List.mem_range.mp hx)

/-! ## Facts about the ranking of eigenvalues -/

theorem orderedInsert_perm {α : Type} (comp : α → α → Bool) (a : α) (l : List α) :
    (orderedInsert comp a l).Perm (a :: l) := by
  induction l with
  | nil => exact List.Perm.refl _
  | cons b l ih =>
    unfold orderedInsert
    split_ifs
    · exact (List.Perm.cons b ih).trans (List.Perm.swap a b l)
    · exact List.Perm.refl _

/-- `stdSort` rearranges its input. -/
theorem stdSort_perm {α : Type} (comp : α → α → Bool) (l : List α) :
    (stdSort comp l).Perm l := by
  induction l with
  | nil => exact List.Perm.refl _
  | cons a l ih =>
    unfold stdSort
    exact (orderedInsert_perm comp a _).trans (List.Perm.cons a ih)

theorem orderedInsert_descending (a : Nat × Double) (l : List (Nat × Double))
    (h : l.Pairwise (fun p q => q.2 ≤ p.2)) :
    (orderedInsert compareEigenvaluePairs a l).Pairwise (fun p q => q.2 ≤ p.2) := by
  induction l with
  | nil => simp [orderedInsert]
  | cons b l ih =>
    rw [List.pairwise_cons] at h
    unfold orderedInsert
    split_ifs with hc
    · have hab : a.2 < b.2 := by simpa [compareEigenvaluePairs] using hc
      rw [List.pairwise_cons]
      refine ⟨?_, ih h.2⟩
      intro q hq
      rcases List.mem_cons.1 ((orderedInsert_perm _ a l).mem_iff.1 hq) with hq | hq
      · rw [hq]; exact le_of_lt hab
      · exact h.1 q hq
    · have hba : b.2 ≤ a.2 := by simpa [compareEigenvaluePairs] using hc
      rw [List.pairwise_cons]
      refine ⟨?_, List.pairwise_cons.2 h⟩
      intro q hq
      rcases List.mem_cons.1 hq with hq | hq
      · rw [hq]; exact hba
      · exact le_trans (h.1 q hq) hba

/-- After `std::sort` with `compareEigenvaluePairs` the eigenvalues descend. -/
theorem stdSort_descending (l : List (Nat × Double)) :
    (stdSort compareEigenvaluePairs l).Pairwise (fun p q => q.2 ≤ p.2) := by
  induction l with
  | nil => simp [stdSort]
  | cons a l ih =>
    unfold stdSort
    exact orderedInsert_descending a _ ih

/-- In a strictly descending list, the entry at position `p` has exactly the
entries behind it below it. -/
theorem countP_lt_of_descending (vs : List Double) (h : vs.Pairwise (fun a b => b < a))
    (p : Nat) (hp : p < vs.length) :
    vs.countP (fun v => decide (v < vs[p])) = vs.length - 1 - p := by
  induction vs generalizing p with
  | nil => simp at hp
  | cons a t ih =>
    rw [List.pairwise_cons] at h
    cases p with
    | zero =>
      rw [List.countP_cons]
      simp only [List.getElem_cons_zero, lt_self_iff_false, decide_False, Bool.false_eq_true,
        if_false, add_zero, List.length_cons, Nat.add_sub_cancel, Nat.sub_zero]
      rw [List.countP_eq_length]
      intro b hb
      simpa using h.1 b hb
    | succ q =>
      have hq : q < t.length := by simpa using hp
      rw [List.countP_cons]
      simp only [List.getElem_cons_succ, List.length_cons]
      have hlt : t[q] < a := h.1 _ (List.getElem_mem _)
      have : ¬ a < t[q] := not_lt.2 (le_of_lt hlt)
      simp only [this, decide_False, Bool.false_eq_true, if_false, add_zero]
      rw [ih h.2 q hq]
      omega

/-- In a strictly descending list, the entry at position `p` has exactly the
entries in front of it above it. -/
theorem countP_gt_of_descending (vs : List Double) (h : vs.Pairwise (fun a b => b < a))
    (p : Nat) (hp : p < vs.length) :
    vs.countP (fun v => decide (vs[p] < v)) = p := by
  induction vs generalizing p with
  | nil => simp at hp
  | cons a t ih =>
    rw [List.pairwise_cons] at h
    cases p with
    | zero =>
      rw [List.countP_cons]
      simp only [List.getElem_cons_zero, lt_self_iff_false, decide_False, Bool.false_eq_true,
        if_false, add_zero]
      rw [List.countP_eq_zero]
      intro b hb
      simpa using le_of_lt (h.1 b hb)
    | succ q =>
      have hq : q < t.length := by simpa using hp
      rw [List.countP_cons]
      simp only [List.getElem_cons_succ]
      have hlt : t[q] < a := h.1 _ (List.getElem_mem _)
      simp only [hlt, decide_True, if_true]
      rw [ih h.2 q hq]

theorem mem_collectEigenValues (solver : EigenSolver) (q : Nat × Double)
    (h : q ∈ collectEigenValues solver) :
    q.1 < solver.eigenvaluesSize ∧ q.2 = solver.eigenvaluesCoeff q.1 := by
  unfold collectEigenValues at h
  obtain ⟨k, hk, rfl⟩ := List.mem_map.1 h
  exact ⟨List.mem_range.1 hk, rfl⟩

theorem length_ranked (solver : EigenSolver) :
    (stdSort compareEigenvaluePairs (collectEigenValues solver)).length =
      solver.eigenvaluesSize := by
  rw [(stdSort_perm _ _).length_eq]
  simp [collectEigenValues]

/-- With pairwise distinct eigenvalues the ranking is strictly descending. -/
theorem ranked_strictly_descending (solver : EigenSolver) (hd : distinctEigenvalues solver) :
    ((stdSort compareEigenvaluePairs (collectEigenValues solver)).map Prod.snd).Pairwise
      (fun a b => b < a) := by
  have hperm := stdSort_perm compareEigenvaluePairs (collectEigenValues solver)
  have hnd0 : ((collectEigenValues solver).map Prod.snd).Nodup := by
    unfold collectEigenValues
    rw [List.map_map]
    apply List.Nodup.map_on _ (List.nodup_range _)
    intro i hi j hj hij
    by_contra hne
    exact hd i (List.mem_range.1 hi) j (List.mem_range.1 hj) hne hij
  have hnd : ((stdSort compareEigenvaluePairs (collectEigenValues solver)).map
      Prod.snd).Nodup := ((hperm.map Prod.snd).nodup_iff).2 hnd0
  have hne : (stdSort compareEigenvaluePairs (collectEigenValues solver)).Pairwise
      (fun p q => p.2 ≠ q.2) := List.pairwise_map.1 hnd
  rw [List.pairwise_map]
  exact ((stdSort_descending _).and hne).imp
    (fun {p q} h => lt_of_le_of_ne h.1 (fun e => h.2 e.symm))

/-- Counting over the indices is counting over the ranked values. -/
theorem countP_ranked (solver : EigenSolver) (pr : Double → Bool) :
    ((List.range solver.eigenvaluesSize).filter
        (fun k => pr (solver.eigenvaluesCoeff k))).length =
      ((stdSort compareEigenvaluePairs (collectEigenValues solver)).map Prod.snd).countP pr := by
  have hperm := stdSort_perm compareEigenvaluePairs (collectEigenValues solver)
  rw [((hperm.map Prod.snd).countP_eq pr), ← List.countP_eq_length_filter]
  unfold collectEigenValues
  rw [List.map_map, List.countP_map]
  rfl

/-- The pair ranked at position `p` carries an index of the solver with `p`
eigenvalues above it and the remaining ones below it. -/
theorem ranked_position (solver : EigenSolver) (hd : distinctEigenvalues solver)
    (p : Nat) (hp : p < solver.eigenvaluesSize) :
    ∃ q, (stdSort compareEigenvaluePairs (collectEigenValues solver))[p]? = some q ∧
      q.1 < solver.eigenvaluesSize ∧
      countSmaller solver q.1 = solver.eigenvaluesSize - 1 - p ∧
      countGreater solver q.1 = p := by
  have hlen := length_ranked solver
  have hps : p < (stdSort compareEigenvaluePairs (collectEigenValues solver)).length := by
    rw [hlen]; exact hp
  have hpv : p < ((stdSort compareEigenvaluePairs (collectEigenValues solver)).map
      Prod.snd).length := by
    rw [List.length_map]; exact hps
  refine ⟨(stdSort compareEigenvaluePairs (collectEigenValues solver))[p],
    List.getElem?_eq_getElem hps, ?_⟩
  have hmem := mem_collectEigenValues solver _
    ((stdSort_perm compareEigenvaluePairs (collectEigenValues solver)).mem_iff.1
      (List.getElem_mem hps))
  have hval : ((stdSort compareEigenvaluePairs (collectEigenValues solver)).map Prod.snd)[p] =
      solver.eigenvaluesCoeff
        (stdSort compareEigenvaluePairs (collectEigenValues solver))[p].1 := by
    rw [List.getElem_map]; exact hmem.2
  have hsd := ranked_strictly_descending solver hd
  refine ⟨hmem.1, ?_, ?_⟩
  · unfold countSmaller
    rw [countP_ranked solver (fun v => decide (v < solver.eigenvaluesCoeff
      (stdSort compareEigenvaluePairs (collectEigenValues solver))[p].1)), ← hval,
      countP_lt_of_descending _ hsd p hpv, List.length_map, hlen]
  · unfold countGreater
    rw [countP_ranked solver (fun v => decide (solver.eigenvaluesCoeff
      (stdSort compareEigenvaluePairs (collectEigenValues solver))[p].1 < v)), ← hval,
      countP_gt_of_descending _ hsd p hpv]

/-- With pairwise distinct eigenvalues, every rearrangement of the pairs in
which `compareEigenvaluePairs` orders no element before an earlier one is the
list computed by `stdSort`: the outcome of `std::sort` is determined. -/
theorem stdSort_unique (l s : List (Nat × Double)) (hperm : s.Perm l)
    (hsorted : s.Pairwise (fun p q => compareEigenvaluePairs q p = false))
    (hnd : (l.map Prod.snd).Nodup) :
    s = stdSort compareEigenvaluePairs l := by
  have strict : ∀ t : List (Nat × Double), t.Perm l →
      t.Pairwise (fun p q => q.2 ≤ p.2) → t.Pairwise (fun p q => q.2 < p.2) := by
    intro t ht hdesc
    have hne : t.Pairwise (fun p q => p.2 ≠ q.2) :=
      List.pairwise_map.1 (((ht.map Prod.snd).nodup_iff).2 hnd)
    exact (hdesc.and hne).imp (fun {p q} h => lt_of_le_of_ne h.1 (fun e => h.2 e.symm))
  have hs : s.Pairwise (fun p q => q.2 ≤ p.2) :=
    hsorted.imp (fun {p q} h => by simpa [compareEigenvaluePairs] using h)
  have h1 := strict s hperm hs
  have h2 := strict _ (stdSort_perm compareEigenvaluePairs l) (stdSort_descending l)
  haveI : IsAntisymm (Nat × Double) (fun p q => q.2 < p.2) :=
    ⟨fun a b hab hba => absurd (lt_trans hab hba) (lt_irrefl _)⟩
  exact List.eq_of_perm_of_sorted (hperm.trans (stdSort_perm compareEigenvaluePairs l).symm)
    h1 h2

theorem orderedInsert_filter_eq (a : Nat × Double) (l : List (Nat × Double)) (v : Double) :
    (orderedInsert compareEigenvaluePairs a l).filter (fun p => decide (p.2 = v)) =
      (a :: l).filter (fun p => decide (p.2 = v)) := by
  induction l with
  | nil => rfl
  | cons b l ih =>
    unfold orderedInsert
    split_ifs with hc
    · have hab : a.2 < b.2 := by simpa [compareEigenvaluePairs] using hc
      rw [List.filter_cons, ih]
      simp only [List.filter_cons]
      by_cases ha : a.2 = v
      · have hb : ¬ b.2 = v := fun h => absurd (ha.trans h.symm) (ne_of_lt hab)
        simp [ha, hb]
      · simp [ha]
    · rfl

/-- The embedding of `std::sort` keeps the input order of the pairs that share
an eigenvalue. -/
theorem stdSort_stable (l : List (Nat × Double)) (v : Double) :
    (stdSort compareEigenvaluePairs l).filter (fun p => decide (p.2 = v)) =
      l.filter (fun p => decide (p.2 = v)) := by
  induction l with
  | nil => rfl
  | cons a l ih =>
    unfold stdSort
    rw [orderedInsert_filter_eq, List.filter_cons, List.filter_cons, ih]

/-! ## Facts about `layoutSimpleRing` and the frame of both simple layouts -/

/-- The node vector returned by `layoutSimpleRing`, entry by entry. -/
theorem layoutSimpleRing_getElem? (ringPoint : Nat → Nat → Vec2i) (nodes : List DummyNode)
    (i : Nat) :
    (layoutSimpleRing ringPoint nodes)[i]? =
      (nodes[i]?).map
        (fun d => { d with position := ringCell ringPoint nodes.length i }) := by
  unfold layoutSimpleRing
  by_cases h1 : 1 ≤ nodes.length
  · rw [if_pos h1]
    simp only []
    have h0 : ∀ j, (setPosition nodes 0 ⟨0, 0⟩)[j]? =
        (nodes[j]?).map (fun d =>
          if j < 1 then { d with position := ringCell ringPoint nodes.length j } else d) := by
      intro j
      rw [getElem?_setPosition]
      by_cases hj : j = 0
      · subst hj; simp [ringCell]
      · have : ¬ j < 1 := by omega
        simp [hj, this]
    by_cases h2 : 1 < nodes.length
    · rw [if_pos h2]
      have key := foldl_range'_invariant
        (fun k (ns : List DummyNode) => ∀ j, ns[j]? =
          (nodes[j]?).map (fun d =>
            if j < k then { d with position := ringCell ringPoint nodes.length j } else d))
        (ringStep ringPoint nodes.length) 1 (nodes.length - 1)
        (setPosition nodes 0 ⟨0, 0⟩) h0 ?_
      · have hlen : 1 + (nodes.length - 1) = nodes.length := by omega
        rw [hlen] at key
        rw [key i]
        by_cases hi : i < nodes.length
        · simp [hi]
        · have : nodes[i]? = none := by
            rw [List.getElem?_eq_none_iff]; omega
          simp [this]
      · intro k ns hk _ hns j
        unfold ringStep
        rw [getElem?_setPosition, hns j]
        by_cases hjk : j = k
        · subst hjk
          have hne : j ≠ 0 := by omega
          cases nodes[j]? with
          | none => simp
          | some d => simp [ringCell, hne]
        · rw [if_neg hjk]
          by_cases hlt : j < k
          · simp [hlt, Nat.lt_succ_of_lt hlt]
          · have : ¬ j < k + 1 := by omega
            simp [hlt, this]
    · rw [if_neg h2, h0 i]
      by_cases hi : i < 1
      · simp [hi]
      · have : nodes[i]? = none := by
          rw [List.getElem?_eq_none_iff]; omega
        simp [this]
  · rw [if_neg h1]
    have : nodes[i]? = none := by
      rw [List.getElem?_eq_none_iff]; omega
    simp [this]

/-- A list that is entry by entry a repositioned copy has the same length. -/
theorem length_eq_of_getElem?_map (out nodes : List DummyNode) (f : Nat → DummyNode → DummyNode)
    (h : ∀ i : Nat, out[i]? = (nodes[i]?).map (f i)) : out.length = nodes.length := by
  apply le_antisymm
  · by_contra hlt
    have h1 : nodes.length < out.length := by omega
    have h2 := h nodes.length
    rw [List.getElem?_eq_getElem h1] at h2
    simp at h2
  · by_contra hlt
    have h1 : out.length < nodes.length := by omega
    have h2 := h out.length
    rw [List.getElem?_eq_getElem h1] at h2
    simp at h2

theorem length_layoutSimpleRing (ringPoint : Nat → Nat → Vec2i) (nodes : List DummyNode) :
    (layoutSimpleRing ringPoint nodes).length = nodes.length :=
  length_eq_of_getElem?_map _ nodes _ (layoutSimpleRing_getElem? ringPoint nodes)

/-- Writing a position erases the dependence on the previous one. -/
theorem setPosition_erasePosition (d : DummyNode) (p : Vec2i) :
    ({ erasePosition d with position := p } : DummyNode) = { d with position := p } := rfl

theorem reposition_congr (d d' : DummyNode) (p : Vec2i)
    (h : erasePosition d = erasePosition d') :
    ({ d with position := p } : DummyNode) = { d' with position := p } := by
  rw [← setPosition_erasePosition d, ← setPosition_erasePosition d', h]

/-- Two layouts that reposition every entry by index agree on inputs that agree
up to the top-level positions. -/
theorem reposition_independent (out out' nodes nodes' : List DummyNode)
    (cell : Nat → Vec2i)
    (h : ∀ i : Nat, out[i]? =
      (nodes[i]?).map (fun d : DummyNode => { d with position := cell i }))
    (h' : ∀ i : Nat, out'[i]? =
      (nodes'[i]?).map (fun d : DummyNode => { d with position := cell i }))
    (he : nodes.map erasePosition = nodes'.map erasePosition) : out = out' := by
  apply List.ext_getElem?
  intro i
  rw [h i, h' i]
  have hi : (nodes[i]?).map erasePosition = (nodes'[i]?).map erasePosition := by
    rw [← List.getElem?_map, ← List.getElem?_map, he]
  cases hn : nodes[i]? with
  | none =>
    rw [hn] at hi
    cases hn' : nodes'[i]? with
    | none => rfl
    | some d' => rw [hn'] at hi; simp at hi
  | some d =>
    rw [hn] at hi
    cases hn' : nodes'[i]? with
    | none => rw [hn'] at hi; simp at hi
    | some d' =>
      rw [hn'] at hi
      simp only [Option.map_some', Option.some.injEq] at hi ⊢
      exact reposition_congr d d' _ hi

/-! ## The shape of the raster grid -/

/-- The index of the last row used for `n ≥ 1` nodes is `w - 2` or `w - 1`. -/
theorem raster_last_row (n : Nat) (hn : 1 ≤ n) :
    (n - 1) / ceilSqrt n + 1 = ceilSqrt n - 1 ∨ (n - 1) / ceilSqrt n + 1 = ceilSqrt n := by
  have hw : 0 < ceilSqrt n := ceilSqrt_pos hn
  obtain ⟨v, hv⟩ : ∃ v, ceilSqrt n = v + 1 := ⟨ceilSqrt n - 1, by omega⟩
  have hup := (ceilSqrt_spec n).1
  have hlow := (ceilSqrt_spec n).2 v (by omega)
  rw [hv] at hup ⊢
  have h1 : (n - 1) / (v + 1) < v + 1 := by
    rw [Nat.div_lt_iff_lt_mul (by omega)]
    omega
  have h2 : v - 1 ≤ (n - 1) / (v + 1) := by
    rw [Nat.le_div_iff_mul_le (by omega)]
    rcases Nat.eq_zero_or_pos v with h0 | h0
    · subst h0; simp
    · obtain ⟨u, hu⟩ : ∃ u, v = u + 1 := ⟨v - 1, by omega⟩
      subst hu
      have e1 : (u + 1 - 1) * (u + 1 + 1) = u * u + 2 * u := by
        rw [Nat.add_sub_cancel]; ring
      have e2 : (u + 1) * (u + 1) = u * u + 2 * u + 1 := by ring
      rw [e1]
      rw [e2] at hlow
      omega
  omega

theorem raster_row_le (n i : Nat) (hi : i < n) :
    i / ceilSqrt n ≤ (n - 1) / ceilSqrt n :=
  Nat.div_le_div_right (by omega)

/-- A raster cell determines the index. -/
theorem rasterCell_injective (w i j : Nat) (h : rasterCell w i = rasterCell w j) : i = j := by
  unfold rasterCell at h
  have hx : (150 : Int) * ((i % w : Nat) : Int) = 150 * ((j % w : Nat) : Int) :=
    congrArg Vec2i.x h
  have hy : (150 : Int) * ((i / w : Nat) : Int) = 150 * ((j / w : Nat) : Int) :=
    congrArg Vec2i.y h
  have h1 : i % w = j % w := by omega
  have h2 : i / w = j / w := by omega
  have e1 := Nat.div_add_mod i w
  have e2 := Nat.div_add_mod j w
  rw [h1, h2] at e1
  omega

/-! ## Isolated groups, aggregation over the hierarchy and linearity -/

/-- An edge adds nothing under a key whose first id it does not touch. -/
theorem edgeContribution_zero_of_untouched (anc : Id → Id) (e : DummyEdge) (a b : Id)
    (h : anc e.ownerId ≠ anc e.targetId → anc e.ownerId ≠ a ∧ anc e.targetId ≠ a) :
    edgeContribution anc e (a, b) = 0 := by
  unfold edgeContribution
  by_cases hne : anc e.ownerId ≠ anc e.targetId
  · rw [if_pos hne]
    obtain ⟨h1, h2⟩ := h hne
    have e1 : ¬ a = anc e.ownerId := fun h' => h1 h'.symm
    have e2 : ¬ a = anc e.targetId := fun h' => h2 h'.symm
    simp only [Prod.mk.injEq, e1, e2, false_and, if_false, add_zero]
  · rw [if_neg hne]

/-- The totals under every key that starts with the id of an isolated group
vanish. -/
theorem groupWeight_zero_of_isolated (dflt : DummyNode) (nodes : List DummyNode)
    (edges : List DummyEdge) (i : Nat) (hiso : isolatedGroup dflt nodes edges i) (b : Id) :
    groupWeight dflt nodes edges (tokenIdAt nodes i, b) = 0 := by
  unfold groupWeight
  apply List.sum_eq_zero
  intro v hv
  obtain ⟨e, he, rfl⟩ := List.mem_map.1 hv
  exact edgeContribution_zero_of_untouched _ e _ b (hiso e he)

theorem storedTotal_zero_of_isolated (dflt : DummyNode) (nodes : List DummyNode)
    (edges : List DummyEdge) (i : Nat) (hiso : isolatedGroup dflt nodes edges i) (b : Id) :
    storedTotal dflt nodes edges (tokenIdAt nodes i, b) = 0 := by
  unfold storedTotal
  rw [groupWeight_zero_of_isolated dflt nodes edges i hiso b, wrapInt_zero]

/-- What an edge contributes depends only on the ancestors its endpoints
resolve to and on its weight. -/
theorem edgeContribution_congr (anc : Id → Id) (e e' : DummyEdge)
    (ho : anc e.ownerId = anc e'.ownerId) (ht : anc e.targetId = anc e'.targetId)
    (hw : e.weight = e'.weight) (k : Id × Id) :
    edgeContribution anc e k = edgeContribution anc e' k := by
  unfold edgeContribution
  rw [ho, ht, hw]

theorem mem_flattenList_of_mem (nodes : List DummyNode) (d : DummyNode) (h : d ∈ nodes) :
    d ∈ flattenList nodes := by
  induction nodes with
  | nil => simp at h
  | cons n ns ih =>
    rw [flattenList_cons]
    rcases List.mem_cons.1 h with h | h
    · rw [h]; exact List.mem_cons_self _ _
    · exact List.mem_cons_of_mem _ (List.mem_append_right _ (ih h))

/-- With unique tokenIds, an id resolves to the ancestor of the node carrying it. -/
theorem ancestorOf_of_nodup (dflt : DummyNode) (nodes : List DummyNode)
    (huniq : ((flattenList nodes).map DummyNode.tokenId).Nodup)
    (d : DummyNode) (hd : d ∈ flattenList nodes) :
    ancestorOf dflt nodes d.tokenId = d.topLevelAncestorId := by
  apply ancestorOf_of_mem dflt nodes _ d hd
  intro a ha b hb hab
  rw [List.inj_on_of_nodup_map huniq ha hb hab]

/-- With unique tokenIds and top-level nodes that are their own ancestors, a
top-level tokenId resolves to itself. -/
theorem ancestorOf_topLevel (dflt : DummyNode) (nodes : List DummyNode)
    (hself : ∀ d ∈ nodes, d.topLevelAncestorId = d.tokenId)
    (huniq : ((flattenList nodes).map DummyNode.tokenId).Nodup)
    (a : Id) (ha : a ∈ nodes.map DummyNode.tokenId) :
    ancestorOf dflt nodes a = a := by
  obtain ⟨d, hd, rfl⟩ := List.mem_map.1 ha
  rw [ancestorOf_of_nodup dflt nodes huniq d (mem_flattenList_of_mem nodes d hd)]
  exact hself d hd

theorem groupWeight_perm (dflt : DummyNode) (nodes : List DummyNode)
    (es1 es2 : List DummyEdge) (h : es1.Perm es2) (k : Id × Id) :
    groupWeight dflt nodes es1 k = groupWeight dflt nodes es2 k := by
  unfold groupWeight
  exact (h.map _).sum_eq

theorem edgeContribution_nonneg (anc : Id → Id) (e : DummyEdge) (hw : 0 ≤ e.weight)
    (k : Id × Id) : 0 ≤ edgeContribution anc e k := by
  unfold edgeContribution
  split_ifs <;> omega

theorem groupWeight_nonneg (dflt : DummyNode) (nodes : List DummyNode)
    (edges : List DummyEdge) (hw : ∀ e ∈ edges, 0 ≤ e.weight) (k : Id × Id) :
    0 ≤ groupWeight dflt nodes edges k := by
  unfold groupWeight
  apply List.sum_nonneg
  intro v hv
  obtain ⟨e, he, rfl⟩ := List.mem_map.1 hv
  exact edgeContribution_nonneg _ e (hw e he) k

/-- A group without inter-group edges has a zero on the diagonal. -/
theorem diagonal_zero_of_isolated (dflt : DummyNode) (nodes : List DummyNode)
    (edges : List DummyEdge) (i : Nat) (hi : i < nodes.length)
    (hiso : isolatedGroup dflt nodes edges i) :
    (buildLaplacianMatrix dflt nodes edges).getValue i i = 0 := by
  rw [buildLaplacianMatrix_getValue dflt nodes edges i i hi hi, if_pos rfl]
  exact storedTotal_zero_of_isolated dflt nodes edges i hiso _

/-! ## The guard of the eigenvector selection -/

theorem length_collectEigenVectors (solver : EigenSolver) :
    (collectEigenVectors solver).length = solver.eigenvectorsCols := by
  simp [collectEigenVectors]

/-- `eigenVectors[0].size()` is the row count of `eigenvectors()`. -/
theorem length_head_collectEigenVectors (solver : EigenSolver)
    (h : 0 < solver.eigenvectorsCols) :
    ((collectEigenVectors solver).headD []).length = solver.eigenvectorsRows := by
  unfold collectEigenVectors
  obtain ⟨c, hc⟩ : ∃ c, solver.eigenvectorsCols = c + 1 :=
    ⟨solver.eigenvectorsCols - 1, by omega⟩
  rw [hc, List.range_succ_eq_map]
  simp

theorem columnsCount_buildLaplacianMatrix (dflt : DummyNode) (nodes : List DummyNode)
    (edges : List DummyEdge) :
    (buildLaplacianMatrix dflt nodes edges).columnsCount = nodes.length := by
  rw [buildLaplacianMatrix_eq]; rfl

/-- Under the solver's contract the guard at source line 137 holds exactly when
there are at least 3 top-level nodes. -/
theorem guard_iff (num : Numerics) (dflt : DummyNode) (nodes : List DummyNode)
    (edges : List DummyEdge)
    (hfit : eigenDimensionsMatch num (buildLaplacianMatrix dflt nodes edges)) :
    (0 < (collectEigenVectors (num.solve (buildLaplacianMatrix dflt nodes edges))).length ∧
      3 ≤ ((collectEigenVectors
        (num.solve (buildLaplacianMatrix dflt nodes edges))).headD []).length) ↔
      3 ≤ nodes.length := by
  obtain ⟨hc, hr, -⟩ := hfit
  rw [columnsCount_buildLaplacianMatrix] at hc hr
  rw [length_collectEigenVectors, hc]
  constructor
  · rintro ⟨hpos, h3⟩
    rw [length_head_collectEigenVectors _ (by omega), hr] at h3
    exact h3
  · intro h3
    refine ⟨by omega, ?_⟩
    rw [length_head_collectEigenVectors _ (by omega), hr]
    exact h3

/-- With at least 3 ranked pairs both reads of source lines 139-140 are inside
the vector. -/
theorem selectAxes_isSome (eigenValues : List (Nat × Double)) (h : 3 ≤ eigenValues.length) :
    ∃ xIdx yIdx, selectAxes eigenValues = some (xIdx, yIdx) := by
  unfold selectAxes
  rw [if_pos h, List.getElem?_eq_getElem (by omega : eigenValues.length - 2 < _),
    List.getElem?_eq_getElem (by omega : eigenValues.length - 3 < _)]
  exact ⟨_, _, rfl⟩

/-! ## The placement loop of the spectral layout -/

/-- Writing positions at the indices `0 .. n - 1`, entry by entry. -/
theorem foldl_setPosition_range (pos : Nat → Vec2i) (nodes : List DummyNode) (n : Nat)
    (j : Nat) :
    ((List.range n).foldl (fun ns i => setPosition ns i (pos i)) nodes)[j]? =
      (nodes[j]?).map (fun d => if j < n then { d with position := pos j } else d) := by
  refine foldl_range_invariant
    (fun k (ns : List DummyNode) => ∀ j, ns[j]? =
      (nodes[j]?).map (fun d => if j < k then { d with position := pos j } else d))
    (fun ns i => setPosition ns i (pos i)) n nodes ?_ ?_ j
  · intro j
    simp
  · intro k ns _ hns j
    rw [getElem?_setPosition, hns j]
    by_cases hjk : j = k
    · subst hjk
      cases nodes[j]? with
      | none => simp
      | some d => simp
    · rw [if_neg hjk]
      by_cases hlt : j < k
      · simp [hlt, Nat.lt_succ_of_lt hlt]
      · have : ¬ j < k + 1 := by omega
        simp [hlt, this]

theorem getElem?_collectEigenVectors (solver : EigenSolver) (c i : Nat)
    (hc : c < solver.eigenvectorsCols) (hi : i < solver.eigenvectorsRows) :
    ∃ v, (collectEigenVectors solver)[c]? = some v ∧
      v[i]? = some (eigenvectorComponent solver c i) := by
  refine ⟨(List.range solver.eigenvectorsRows).map (fun j =>
    solver.eigenvectorsCoeff (c * solver.eigenvectorsRows + j)), ?_, ?_⟩
  · unfold collectEigenVectors
    rw [List.getElem?_map, List.getElem?_range hc]
    rfl
  · rw [List.getElem?_map, List.getElem?_range hi]
    rfl

/-- One pass of the placement loop with all reads in bounds. -/
theorem placeNode_eq (embed : Double → Double → Vec2i) (solver : EigenSolver)
    (xIdx yIdx : Nat) (hx : xIdx < solver.eigenvectorsCols)
    (hy : yIdx < solver.eigenvectorsCols) (nodes : List DummyNode) (i : Nat)
    (hi : i < solver.eigenvectorsRows) :
    placeNode embed (collectEigenVectors solver) xIdx yIdx nodes i =
      some (setPosition nodes i
        (embed (eigenvectorComponent solver xIdx i) (eigenvectorComponent solver yIdx i))) := by
  obtain ⟨vx, hvx, hxi⟩ := getElem?_collectEigenVectors solver xIdx i hx hi
  obtain ⟨vy, hvy, hyi⟩ := getElem?_collectEigenVectors solver yIdx i hy hi
  unfold placeNode
  rw [hvx, hvy]
  simp only []
  rw [hxi, hyi]

/-- The placement loop with all reads in bounds is a sequence of writes. -/
theorem placeNodes_eq (embed : Double → Double → Vec2i) (solver : EigenSolver)
    (xIdx yIdx : Nat) (hx : xIdx < solver.eigenvectorsCols)
    (hy : yIdx < solver.eigenvectorsCols) (indices : List Nat)
    (hin : ∀ i ∈ indices, i < solver.eigenvectorsRows) (nodes : List DummyNode) :
    placeNodes embed (collectEigenVectors solver) xIdx yIdx indices nodes =
      some (indices.foldl (fun ns i => setPosition ns i
        (embed (eigenvectorComponent solver xIdx i) (eigenvectorComponent solver yIdx i)))
        nodes) := by
  induction indices generalizing nodes with
  | nil => rfl
  | cons i rest ih =>
    unfold placeNodes
    rw [placeNode_eq embed solver xIdx yIdx hx hy nodes i (hin i (List.mem_cons_self _ _))]
    simp only [List.foldl_cons]
    exact ih (fun k hk => hin k (List.mem_cons_of_mem _ hk)) _

/-- The ranking picks, for pairwise distinct eigenvalues, the indices of the
2nd-smallest and the 3rd-smallest eigenvalue. -/
theorem selectedAxes_rank (solver : EigenSolver)
    (h3 : 3 ≤ solver.eigenvaluesSize) (hd : distinctEigenvalues solver) :
    ∃ xIdx yIdx, selectedAxes solver = some (xIdx, yIdx) ∧
      xIdx < solver.eigenvaluesSize ∧ yIdx < solver.eigenvaluesSize ∧
      countSmaller solver xIdx = 1 ∧ countSmaller solver yIdx = 2 ∧
      countGreater solver xIdx = solver.eigenvaluesSize - 2 ∧
      countGreater solver yIdx = solver.eigenvaluesSize - 3 := by
  obtain ⟨qx, hqx, hx1, hx2, hx3⟩ :=
    ranked_position solver hd (solver.eigenvaluesSize - 2) (by omega)
  obtain ⟨qy, hqy, hy1, hy2, hy3⟩ :=
    ranked_position solver hd (solver.eigenvaluesSize - 3) (by omega)
  refine ⟨qx.1, qy.1, ?_, hx1, hy1, ?_, ?_, hx3, hy3⟩
  · unfold selectedAxes selectAxes
    rw [length_ranked, if_pos h3, hqx, hqy]
  · rw [hx2]; omega
  · rw [hy2]; omega

/-- On the spectral path, with all reads in bounds, the layout places every node
from the two eigenvectors that the ranking selects. -/
theorem layoutSpectralPrototype_selected (num : Numerics) (dflt : DummyNode)
    (nodes : List DummyNode) (edges : List DummyEdge) (h3 : 3 ≤ nodes.length)
    (hdiag : nonDegenerate dflt nodes edges)
    (hfit : eigenDimensionsMatch num (buildLaplacianMatrix dflt nodes edges))
    (xIdx yIdx : Nat)
    (hsel : selectedAxes (num.solve (buildLaplacianMatrix dflt nodes edges)) =
      some (xIdx, yIdx))
    (hx : xIdx < nodes.length) (hy : yIdx < nodes.length) :
    usesAxes num dflt nodes edges xIdx yIdx := by
  have hcols := hfit.1
  have hrows := hfit.2.1
  rw [columnsCount_buildLaplacianMatrix] at hcols hrows
  have hguard := (guard_iff num dflt nodes edges hfit).2 h3
  have hany : (List.range (buildLaplacianMatrix dflt nodes edges).columnsCount).any
      (fun i => (buildLaplacianMatrix dflt nodes edges).getValue i i == 0) = false := by
    rw [List.any_eq_false]
    intro i hi
    rw [List.mem_range, columnsCount_buildLaplacianMatrix] at hi
    simpa using hdiag i hi
  have hrun : layoutSpectralPrototype num dflt nodes edges =
      some ((List.range nodes.length).foldl (fun ns i => setPosition ns i
        (num.embed
          (eigenvectorComponent (num.solve (buildLaplacianMatrix dflt nodes edges)) xIdx i)
          (eigenvectorComponent (num.solve (buildLaplacianMatrix dflt nodes edges)) yIdx i)))
        nodes) := by
    unfold layoutSpectralPrototype
    rw [if_neg (by omega)]
    simp only []
    rw [hany]
    simp only [Bool.false_eq_true, if_false]
    rw [if_pos hguard, hsel]
    simp only []
    apply placeNodes_eq
    · rw [hcols]; exact hx
    · rw [hcols]; exact hy
    · intro i hi
      rw [hrows]
      exact List.mem_range.1 hi
  unfold usesAxes
  rw [hrun]
  show ∀ i, i < nodes.length → _
  intro i hi
  rw [foldl_setPosition_range, List.getElem?_eq_getElem hi]
  simp [hi]

/-! ## Claims about the raster layout -/

/-- C1: for every node list of length n and every index i < n, layoutSimpleRaster
leaves at index i a node whose position is (150 * (i mod w), 150 * (i div w)),
where w is ceil(sqrt(n)): nodes are placed in input order, row-major, from the
origin, with cell spacing 150. -/
theorem layoutSimpleRaster_position (nodes : List DummyNode) (i : Nat)
    (h : i < nodes.length) :
    ((layoutSimpleRaster nodes)[i]?).map DummyNode.position =
        some ⟨150 * ((i % ceilSqrt nodes.length : Nat) : Int),
              150 * ((i / ceilSqrt nodes.length : Nat) : Int)⟩ ∧
      ceilSqrt nodes.length = ⌈Real.sqrt (nodes.length : ℝ)⌉₊ := by
  refine ⟨?_, ceilSqrt_eq_ceil_sqrt _⟩
  rw [layoutSimpleRaster_getElem?, List.getElem?_eq_getElem h]
  rfl

/-- C1 at five nodes: the grid is 3 wide and the node at index 4 is placed in
column 1 of row 1. -/
theorem layoutSimpleRaster_position_witness :
    4 < fiveNodes.length ∧
      ((layoutSimpleRaster fiveNodes)[4]?).map DummyNode.position = some ⟨150, 150⟩ :=
  ⟨by decide, (layoutSimpleRaster_position fiveNodes 4 (by decide)).1.trans (by decide)⟩

/-- C9: for every node count n ≥ 1 the x coordinates assigned by
layoutSimpleRaster are exactly 0, 150, ..., 150 * (w - 1) with w = ceil(sqrt(n)):
the bounding width of the result is w cells. -/
theorem layoutSimpleRaster_columns (nodes : List DummyNode) (h : 1 ≤ nodes.length)
    (x : Int) :
    (∃ d ∈ layoutSimpleRaster nodes, d.position.x = x) ↔
      ∃ k : Nat, k < ceilSqrt nodes.length ∧ x = 150 * (k : Int) := by
  have hw : 0 < ceilSqrt nodes.length := ceilSqrt_pos h
  constructor
  · rintro ⟨d, hd, hx⟩
    obtain ⟨i, hi⟩ := List.mem_iff_getElem?.mp hd
    rw [layoutSimpleRaster_getElem?] at hi
    rcases hn : nodes[i]? with _ | d0
    · rw [hn] at hi; simp at hi
    · rw [hn] at hi
      simp only [Option.map_some', Option.some.injEq] at hi
      refine ⟨i % ceilSqrt nodes.length, Nat.mod_lt _ hw, ?_⟩
      rw [← hx, ← hi]
      rfl
  · rintro ⟨k, hk, hx⟩
    have hkn : k < nodes.length := lt_of_lt_of_le hk (ceilSqrt_le_self _)
    have hget := layoutSimpleRaster_getElem? nodes k
    rw [List.getElem?_eq_getElem hkn] at hget
    refine ⟨_, List.mem_iff_getElem?.mpr ⟨k, hget⟩, ?_⟩
    rw [hx]
    show (rasterCell (ceilSqrt nodes.length) k).x = _
    simp [rasterCell, Nat.mod_eq_of_lt hk]

/-- C9 at five nodes: the grid is 3 wide, so the column at x = 300 is used. -/
theorem layoutSimpleRaster_columns_witness :
    1 ≤ fiveNodes.length ∧ ∃ d ∈ layoutSimpleRaster fiveNodes, d.position.x = 300 :=
  ⟨by decide,
    (layoutSimpleRaster_columns fiveNodes (by decide) 300).mpr ⟨2, by decide, by decide⟩⟩

/-! ## Claims about the Laplacian: symmetry, intra-group edges, edge direction -/

/-- C4: Laplacian symmetry. For any node list and any edge list, the matrix M
returned by buildLaplacianMatrix has getValue(i, j) = getValue(j, i) for all
i, j below the node count. -/
theorem buildLaplacianMatrix_symmetric (dflt : DummyNode) (nodes : List DummyNode)
    (edges : List DummyEdge) (i j : Nat) (hi : i < nodes.length) (hj : j < nodes.length) :
    (buildLaplacianMatrix dflt nodes edges).getValue i j =
      (buildLaplacianMatrix dflt nodes edges).getValue j i :=
  buildLaplacianMatrix_getValue_comm dflt nodes edges i j hi hj

/-- C4 on the three sample groups: the entries (0, 2) and (2, 0) agree, both
being -2. -/
theorem buildLaplacianMatrix_symmetric_witness :
    (buildLaplacianMatrix zeroNode threeGroups threeGroupsEdges).getValue 0 2 = -2 ∧
    (buildLaplacianMatrix zeroNode threeGroups threeGroupsEdges).getValue 0 2 =
      (buildLaplacianMatrix zeroNode threeGroups threeGroupsEdges).getValue 2 0 :=
  ⟨by decide,
    buildLaplacianMatrix_symmetric zeroNode threeGroups threeGroupsEdges 0 2
      (by decide) (by decide)⟩

/-- C8: intra-group edges are invisible to the Laplacian. Inserting, at any
position of the edge list, an edge whose owner and target resolve to nodes with
equal topLevelAncestorId (in particular a self-loop, ownerId = targetId) leaves
the matrix returned by buildLaplacianMatrix unchanged, whatever its weight. -/
theorem buildLaplacianMatrix_insert_intraGroup (dflt : DummyNode) (nodes : List DummyNode)
    (before after : List DummyEdge) (e : DummyEdge)
    (h : e.ownerId = e.targetId ∨
      ancestorOf dflt nodes e.ownerId = ancestorOf dflt nodes e.targetId) :
    buildLaplacianMatrix dflt nodes (before ++ e :: after) =
      buildLaplacianMatrix dflt nodes (before ++ after) := by
  have hanc : ancestorOf dflt nodes e.ownerId = ancestorOf dflt nodes e.targetId := by
    rcases h with h | h
    · rw [h]
    · exact h
  rw [buildLaplacianMatrix_eq, buildLaplacianMatrix_eq]
  congr 1
  funext k
  unfold storedTotal
  congr 1
  rw [groupWeight_append, groupWeight_append, groupWeight_cons]
  have : edgeContribution (ancestorOf dflt nodes) e k = 0 := by
    unfold edgeContribution
    rw [if_neg (fun hne => hne hanc)]
  rw [this, zero_add]

/-- C8 on the three sample groups: an edge of weight 9 from the nested node 111
to its top-level ancestor 1, inserted after the first edge, changes nothing. -/
theorem buildLaplacianMatrix_insert_intraGroup_witness :
    ancestorOf zeroNode threeGroups 111 = ancestorOf zeroNode threeGroups 1 ∧
    buildLaplacianMatrix zeroNode threeGroups
        ([⟨111, 2, 5⟩] ++ ⟨111, 1, 9⟩ :: [⟨2, 3, 1⟩, ⟨3, 11, 2⟩]) =
      buildLaplacianMatrix zeroNode threeGroups ([⟨111, 2, 5⟩] ++ [⟨2, 3, 1⟩, ⟨3, 11, 2⟩]) :=
  ⟨by decide,
    buildLaplacianMatrix_insert_intraGroup zeroNode threeGroups [⟨111, 2, 5⟩]
      [⟨2, 3, 1⟩, ⟨3, 11, 2⟩] ⟨111, 1, 9⟩ (Or.inr (by decide))⟩

/-- C10: edges are treated symmetrically. Swapping ownerId and targetId of any
single edge of the edge list, keeping its weight, leaves the matrix returned by
buildLaplacianMatrix unchanged. -/
theorem buildLaplacianMatrix_swap_endpoints (dflt : DummyNode) (nodes : List DummyNode)
    (before after : List DummyEdge) (e : DummyEdge) :
    buildLaplacianMatrix dflt nodes (before ++ ⟨e.targetId, e.ownerId, e.weight⟩ :: after) =
      buildLaplacianMatrix dflt nodes (before ++ e :: after) := by
  rw [buildLaplacianMatrix_eq, buildLaplacianMatrix_eq]
  congr 1
  funext k
  unfold storedTotal
  congr 1
  rw [groupWeight_append, groupWeight_append, groupWeight_cons, groupWeight_cons,
    edgeContribution_swap]

/-! ## Claims about the Laplacian: row sums and the reference matrix -/

/-- C2 as stated fails: on two singleton groups joined by two edges of weight
2^30 the input satisfies the data-model invariants and the weights are
non-negative `int` values, but the `int` totals wrap around: row 0 of the matrix
is -2^31, -2^31 and does not sum to 0. -/
theorem buildLaplacianMatrix_rowSum_overflow :
    WellFormed twoNodes heavyEdges ∧
    (∀ e ∈ heavyEdges, 0 ≤ e.weight ∧ e.weight < 2147483648) ∧
    (List.range 2).map
        (fun x => (buildLaplacianMatrix zeroNode twoNodes heavyEdges).getValue x 0) =
      [-2147483648, -2147483648] ∧
    rowSum (buildLaplacianMatrix zeroNode twoNodes heavyEdges) 0 ≠ 0 := by
  refine ⟨by decide, by decide, by decide, by decide⟩

/-- C2, amended: Laplacian row-sum invariant. For every node/edge set satisfying
the data-model invariants (top-level tokenIds pairwise distinct, every edge's
ownerId and targetId resolve to a node of the flattened hierarchy, and every
such node's topLevelAncestorId is the tokenId of a top-level node) whose edge
weights have absolute values summing to less than 2^31, so that no `int` total
overflows, every row of the matrix returned by buildLaplacianMatrix sums to
exactly 0; by symmetry so does every column. -/
theorem buildLaplacianMatrix_rowSum_zero (dflt : DummyNode) (nodes : List DummyNode)
    (edges : List DummyEdge) (hwf : WellFormed nodes edges) (hfit : weightsFitInt edges)
    (y : Nat) (hy : y < nodes.length) :
    rowSum (buildLaplacianMatrix dflt nodes edges) y = 0 ∧
      columnSum (buildLaplacianMatrix dflt nodes edges) y = 0 := by
  have hrow : rowSum (buildLaplacianMatrix dflt nodes edges) y = 0 := by
    rw [rowSum_buildLaplacianMatrix dflt nodes edges hfit y hy]
    exact groupWeight_row_sum_zero dflt nodes hwf.1 y hy edges hwf.2
  exact ⟨hrow, (columnSum_eq_rowSum dflt nodes edges y hy).trans hrow⟩

/-- C2, amended, on the three sample groups, whose edges run between nested
nodes: the input satisfies the invariants, the weights fit, and row 0, with
entries 7, -5, -2, sums to 0. -/
theorem buildLaplacianMatrix_rowSum_zero_witness :
    WellFormed threeGroups threeGroupsEdges ∧ weightsFitInt threeGroupsEdges ∧
    (List.range 3).map
        (fun x => (buildLaplacianMatrix zeroNode threeGroups threeGroupsEdges).getValue x 0) =
      [7, -5, -2] ∧
    rowSum (buildLaplacianMatrix zeroNode threeGroups threeGroupsEdges) 0 = 0 :=
  ⟨by decide, by decide, by decide,
    (buildLaplacianMatrix_rowSum_zero zeroNode threeGroups threeGroupsEdges (by decide)
      (by decide) 0 (by decide)).1⟩

/-- C3 as stated fails: on two singleton groups joined by two edges of weight
2^30 the top-level tokenIds are distinct and all endpoints are resolvable, the
reference entry (0, 0) is the sum 2^31 of the two weights, and the matrix holds
the wrapped `int` total -2^31. -/
theorem buildLaplacianMatrix_reference_overflow :
    (twoNodes.map DummyNode.tokenId).Nodup ∧
    (∀ e ∈ heavyEdges, resolvable twoNodes e.ownerId ∧ resolvable twoNodes e.targetId) ∧
    referenceLaplacian twoNodes heavyEdges 0 0 = 2147483648 ∧
    (buildLaplacianMatrix zeroNode twoNodes heavyEdges).getValue 0 0 = -2147483648 ∧
    (buildLaplacianMatrix zeroNode twoNodes heavyEdges).getValue 0 0 ≠
      referenceLaplacian twoNodes heavyEdges 0 0 := by
  refine ⟨by decide, by decide, by decide, by decide, by decide⟩

/-- C3, amended: for well-formed input (distinct top-level tokenIds, all edge
endpoints resolvable) whose edge weights have absolute values summing to less
than 2^31, so that no `int` total overflows, the matrix M returned by
buildLaplacianMatrix equals the reference Laplacian: for i ≠ j, M[i][j] is the
negated sum of getWeight() over all edges whose endpoints' topLevelAncestorIds
are, in either order, the tokenIds of top-level nodes i and j; M[i][i] is the
sum of getWeight() over all edges whose two endpoints have different
topLevelAncestorIds, one of them the tokenId of top-level node i. The
reference reads an endpoint's topLevelAncestorId from the flattened hierarchy,
not from the lookup the code builds. -/
theorem buildLaplacianMatrix_eq_reference (dflt : DummyNode) (nodes : List DummyNode)
    (edges : List DummyEdge) (hnd : (nodes.map DummyNode.tokenId).Nodup)
    (hres : ∀ e ∈ edges, resolvable nodes e.ownerId ∧ resolvable nodes e.targetId)
    (hfit : weightsFitInt edges)
    (i j : Nat) (hi : i < nodes.length) (hj : j < nodes.length) :
    (buildLaplacianMatrix dflt nodes edges).getValue i j =
      referenceLaplacian nodes edges i j := by
  rw [buildLaplacianMatrix_getValue_of_fit dflt nodes edges hfit i j hi hj]
  unfold referenceLaplacian groupWeight
  by_cases hij : i = j
  · subst hij
    rw [if_pos rfl, if_pos rfl, sum_filter_weight]
    congr 1
    apply List.map_congr_left
    intro e he
    rw [edgeContribution_diagonal,
      groupOf_of_resolvable dflt nodes _ (hres e he).1,
      groupOf_of_resolvable dflt nodes _ (hres e he).2]
    simp only [decide_eq_true_eq, ne_eq, Option.some.injEq]
  · have hne : tokenIdAt nodes i ≠ tokenIdAt nodes j :=
      fun h => hij (tokenIdAt_inj nodes hnd i j hi hj h)
    rw [if_neg hij, if_neg hij, sum_filter_weight]
    congr 2
    apply List.map_congr_left
    intro e he
    rw [edgeContribution_offDiagonal _ e _ _ hne,
      groupOf_of_resolvable dflt nodes _ (hres e he).1,
      groupOf_of_resolvable dflt nodes _ (hres e he).2]
    simp only [decide_eq_true_eq, Option.some.injEq]

/-- C3, amended, on the three sample groups: the endpoints, nested ones
included, are resolvable, the entry (0, 1) is -5, the negated weight of the one
edge between groups 1 and 2, and equals the reference entry. -/
theorem buildLaplacianMatrix_eq_reference_witness :
    (threeGroups.map DummyNode.tokenId).Nodup ∧
    (∀ e ∈ threeGroupsEdges,
      resolvable threeGroups e.ownerId ∧ resolvable threeGroups e.targetId) ∧
    weightsFitInt threeGroupsEdges ∧
    referenceLaplacian threeGroups threeGroupsEdges 0 1 = -5 ∧
    (buildLaplacianMatrix zeroNode threeGroups threeGroupsEdges).getValue 0 1 =
      referenceLaplacian threeGroups threeGroupsEdges 0 1 :=
  ⟨by decide, by decide, by decide, by decide,
    buildLaplacianMatrix_eq_reference zeroNode threeGroups threeGroupsEdges (by decide)
      (by decide) (by decide) 0 1 (by decide) (by decide)⟩

/-! ## Claims about the spectral layout -/

/-- A zero on the diagonal of the Laplacian sends the whole node list to the
raster layout. -/
theorem layoutSpectralPrototype_of_zero_diagonal (num : Numerics) (dflt : DummyNode)
    (nodes : List DummyNode) (edges : List DummyEdge) (hn : 2 ≤ nodes.length)
    (i : Nat) (hi : i < nodes.length)
    (hdiag : (buildLaplacianMatrix dflt nodes edges).getValue i i = 0) :
    layoutSpectralPrototype num dflt nodes edges = some (layoutSimpleRaster nodes) := by
  unfold layoutSpectralPrototype
  rw [if_neg (by omega)]
  simp only []
  rw [if_pos]
  rw [List.any_eq_true]
  refine ⟨i, ?_, ?_⟩
  · rw [List.mem_range, buildLaplacianMatrix_eq]
    exact hi
  · rw [hdiag]; rfl

/-- C5: degeneracy fallback. For every node list with at least 2 top-level nodes
in which some top-level node has no edge to another group (so its Laplacian
diagonal entry is 0), layoutSpectralPrototype returns exactly the node list
that layoutSimpleRaster produces from the same nodes; no node receives a
spectral position. -/
theorem layoutSpectralPrototype_degenerate (num : Numerics) (dflt : DummyNode)
    (nodes : List DummyNode) (edges : List DummyEdge) (hn : 2 ≤ nodes.length)
    (i : Nat) (hi : i < nodes.length) (hiso : isolatedGroup dflt nodes edges i) :
    (buildLaplacianMatrix dflt nodes edges).getValue i i = 0 ∧
      layoutSpectralPrototype num dflt nodes edges = some (layoutSimpleRaster nodes) :=
  ⟨diagonal_zero_of_isolated dflt nodes edges i hi hiso,
    layoutSpectralPrototype_of_zero_diagonal num dflt nodes edges hn i hi
      (diagonal_zero_of_isolated dflt nodes edges i hi hiso)⟩

/-- C5 on five singleton groups with the single edge 1 - 2: group 3 (index 2) is
isolated, and the spectral layout returns the raster positions. -/
theorem layoutSpectralPrototype_degenerate_witness :
    isolatedGroup zeroNode fiveNodes [⟨1, 2, 1⟩] 2 ∧
    layoutSpectralPrototype sampleNumerics zeroNode fiveNodes [⟨1, 2, 1⟩] =
      some (layoutSimpleRaster fiveNodes) ∧
    (layoutSimpleRaster fiveNodes).map DummyNode.position =
      [⟨0, 0⟩, ⟨150, 0⟩, ⟨300, 0⟩, ⟨0, 150⟩, ⟨150, 150⟩] :=
  ⟨by decide,
    (layoutSpectralPrototype_degenerate sampleNumerics zeroNode fiveNodes [⟨1, 2, 1⟩]
      (by decide) 2 (by decide) (by decide)).2,
    by decide⟩

/-- C6 as stated fails: on four singleton groups joined in a path, with the
four eigenvalues 4, 3, 2, 1 (pairwise distinct) and eigenvectors whose
components show their index, the layout places every node at (2, 1): the X
axis is eigenvector 2, whose eigenvalue 2 has two eigenvalues above it, and the
Y axis is eigenvector 1, whose eigenvalue 3 has one. The eigenvector of the
2nd-largest eigenvalue is index 1 and that of the 3rd-largest is index 2, and
the layout does not use this pair, nor any pair of that rank, as its axes. -/
theorem layoutSpectralPrototype_not_second_third_largest :
    3 ≤ fourNodes.length ∧ nonDegenerate zeroNode fourNodes pathEdges ∧
    eigenDimensionsMatch markedNumerics (buildLaplacianMatrix zeroNode fourNodes pathEdges) ∧
    distinctEigenvalues
      (markedNumerics.solve (buildLaplacianMatrix zeroNode fourNodes pathEdges)) ∧
    (layoutSpectralPrototype markedNumerics zeroNode fourNodes pathEdges).map
      (fun r => r.map DummyNode.position) = some [⟨2, 1⟩, ⟨2, 1⟩, ⟨2, 1⟩, ⟨2, 1⟩] ∧
    countGreater
      (markedNumerics.solve (buildLaplacianMatrix zeroNode fourNodes pathEdges)) 1 = 1 ∧
    countGreater
      (markedNumerics.solve (buildLaplacianMatrix zeroNode fourNodes pathEdges)) 2 = 2 ∧
    ¬ usesAxes markedNumerics zeroNode fourNodes pathEdges 1 2 ∧
    ¬ ∃ xIdx, xIdx < 4 ∧ ∃ yIdx, yIdx < 4 ∧
      countGreater
        (markedNumerics.solve (buildLaplacianMatrix zeroNode fourNodes pathEdges)) xIdx = 1 ∧
      countGreater
        (markedNumerics.solve (buildLaplacianMatrix zeroNode fourNodes pathEdges)) yIdx = 2 ∧
      usesAxes markedNumerics zeroNode fourNodes pathEdges xIdx yIdx := by
  refine ⟨by decide, by decide, by decide, by decide, by decide, by decide, by decide,
    by decide, by decide⟩

/-- C6, amended: eigenvector selection. In layoutSpectralPrototype, for every
input with at least 3 top-level nodes on the spectral path (no zero on the
Laplacian's diagonal, solver results of the Laplacian's dimension) and pairwise
distinct eigenvalues, after ranking the (index, eigenvalue) pairs in descending
order of eigenvalue the eigenvector used as the X axis is the one belonging to
the 2nd-smallest eigenvalue and the eigenvector used as the Y axis is the one
belonging to the 3rd-smallest eigenvalue: every node i is placed at the point
made of component i of these two eigenvectors. Counted from the top the two
eigenvalues are at ranks size - 2 and size - 3. -/
theorem layoutSpectralPrototype_second_third_smallest (num : Numerics) (dflt : DummyNode)
    (nodes : List DummyNode) (edges : List DummyEdge) (h3 : 3 ≤ nodes.length)
    (hdiag : nonDegenerate dflt nodes edges)
    (hfit : eigenDimensionsMatch num (buildLaplacianMatrix dflt nodes edges))
    (hd : distinctEigenvalues (num.solve (buildLaplacianMatrix dflt nodes edges))) :
    ∃ xIdx yIdx, xIdx < nodes.length ∧ yIdx < nodes.length ∧
      countSmaller (num.solve (buildLaplacianMatrix dflt nodes edges)) xIdx = 1 ∧
      countSmaller (num.solve (buildLaplacianMatrix dflt nodes edges)) yIdx = 2 ∧
      countGreater (num.solve (buildLaplacianMatrix dflt nodes edges)) xIdx =
        nodes.length - 2 ∧
      countGreater (num.solve (buildLaplacianMatrix dflt nodes edges)) yIdx =
        nodes.length - 3 ∧
      usesAxes num dflt nodes edges xIdx yIdx := by
  have hsize : (num.solve (buildLaplacianMatrix dflt nodes edges)).eigenvaluesSize =
      nodes.length := by
    rw [hfit.2.2, columnsCount_buildLaplacianMatrix]
  obtain ⟨xIdx, yIdx, hsel, hx, hy, hsx, hsy, hgx, hgy⟩ :=
    selectedAxes_rank (num.solve (buildLaplacianMatrix dflt nodes edges))
      (by rw [hsize]; exact h3) hd
  rw [hsize] at hx hy hgx hgy
  exact ⟨xIdx, yIdx, hx, hy, hsx, hsy, hgx, hgy,
    layoutSpectralPrototype_selected num dflt nodes edges h3 hdiag hfit xIdx yIdx hsel hx hy⟩

/-- C6, amended, on the four singleton groups joined in a path, with the
eigenvalues 4, 3, 2, 1: the X axis is eigenvector 2 (eigenvalue 2, the
2nd-smallest), the Y axis is eigenvector 1 (eigenvalue 3, the 3rd-smallest),
and every node is placed at (2, 1). -/
theorem layoutSpectralPrototype_second_third_smallest_witness :
    countSmaller
      (markedNumerics.solve (buildLaplacianMatrix zeroNode fourNodes pathEdges)) 2 = 1 ∧
    countSmaller
      (markedNumerics.solve (buildLaplacianMatrix zeroNode fourNodes pathEdges)) 1 = 2 ∧
    usesAxes markedNumerics zeroNode fourNodes pathEdges 2 1 ∧
    ∃ xIdx yIdx, xIdx < fourNodes.length ∧ yIdx < fourNodes.length ∧
      countSmaller
        (markedNumerics.solve (buildLaplacianMatrix zeroNode fourNodes pathEdges)) xIdx = 1 ∧
      countSmaller
        (markedNumerics.solve (buildLaplacianMatrix zeroNode fourNodes pathEdges)) yIdx = 2 ∧
      countGreater
        (markedNumerics.solve (buildLaplacianMatrix zeroNode fourNodes pathEdges)) xIdx =
          fourNodes.length - 2 ∧
      countGreater
        (markedNumerics.solve (buildLaplacianMatrix zeroNode fourNodes pathEdges)) yIdx =
          fourNodes.length - 3 ∧
      usesAxes markedNumerics zeroNode fourNodes pathEdges xIdx yIdx :=
  ⟨by decide, by decide, by decide,
    layoutSpectralPrototype_second_third_smallest markedNumerics zeroNode fourNodes pathEdges
      (by decide) (by decide) (by decide) (by decide)⟩

/-- C7: for every node list with fewer than 2 nodes (empty or a single node) and
any edge list, layoutSpectralPrototype is a no-op: it returns the node list
unchanged, positions and all other fields included. -/
theorem layoutSpectralPrototype_too_few (num : Numerics) (dflt : DummyNode)
    (nodes : List DummyNode) (edges : List DummyEdge) (h : nodes.length < 2) :
    layoutSpectralPrototype num dflt nodes edges = some nodes := by
  unfold layoutSpectralPrototype
  rw [if_pos h]

/-- C7 on a single node carrying a self-loop: the node keeps its position
(7, 7). -/
theorem layoutSpectralPrototype_too_few_witness :
    [leafNode 1].length < 2 ∧
    layoutSpectralPrototype sampleNumerics zeroNode [leafNode 1] [⟨1, 1, 3⟩] =
      some [leafNode 1] ∧
    (leafNode 1).position = ⟨7, 7⟩ :=
  ⟨by decide,
    layoutSpectralPrototype_too_few sampleNumerics zeroNode [leafNode 1] [⟨1, 1, 3⟩]
      (by decide),
    by decide⟩

/-! ## Claims about the ring layout and the frame of the simple layouts -/

/-- C11: for every node list with n ≥ 1 nodes, layoutSimpleRing places node 0 at
exactly (0, 0); for n = 0 it does nothing, and for n = 1 no other position is
written: the single node is returned with position (0, 0) and is otherwise
unchanged. This holds whatever the float computation of the circle points
yields. -/
theorem layoutSimpleRing_first (ringPoint : Nat → Nat → Vec2i) (nodes : List DummyNode) :
    (1 ≤ nodes.length →
      ((layoutSimpleRing ringPoint nodes)[0]?).map DummyNode.position = some ⟨0, 0⟩) ∧
    (nodes.length = 0 → layoutSimpleRing ringPoint nodes = nodes) ∧
    (nodes.length = 1 →
      layoutSimpleRing ringPoint nodes =
        nodes.map (fun d => { d with position := ⟨0, 0⟩ })) := by
  refine ⟨?_, ?_, ?_⟩
  · intro h
    rw [layoutSimpleRing_getElem?, List.getElem?_eq_getElem (by omega)]
    rfl
  · intro h
    unfold layoutSimpleRing
    rw [if_neg (by omega)]
  · intro h
    apply List.ext_getElem?
    intro i
    rw [layoutSimpleRing_getElem?, List.getElem?_map]
    by_cases hi : i = 0
    · subst hi; rfl
    · have : nodes[i]? = none := by
        rw [List.getElem?_eq_none_iff]; omega
      rw [this]; rfl

/-- C11 on the three sample groups and on a single node: node 0 ends at (0, 0),
its sub-nodes keep their positions (8, 8), and the single node is only moved to
the origin. -/
theorem layoutSimpleRing_first_witness :
    ((layoutSimpleRing sampleRingPoint threeGroups)[0]?).map DummyNode.position =
      some ⟨0, 0⟩ ∧
    ((layoutSimpleRing sampleRingPoint threeGroups)[0]?).map
      (fun d => d.subNodes.map DummyNode.position) = some [⟨8, 8⟩] ∧
    layoutSimpleRing sampleRingPoint [leafNode 1] =
      [leafNode 1].map (fun d => { d with position := ⟨0, 0⟩ }) :=
  ⟨(layoutSimpleRing_first sampleRingPoint threeGroups).1 (by decide), by decide,
    (layoutSimpleRing_first sampleRingPoint [leafNode 1]).2.2 (by decide)⟩

/-- C16: layoutSimpleRaster and layoutSimpleRing mutate only the position field
of the top-level nodes. On return the node list has the same length and order,
and the node at each index has the tokenId, topLevelAncestorId and subNodes
(the sub-nodes' positions included) it had before; two inputs that differ only
in top-level positions give the same result; and each layout is idempotent. -/
theorem simpleLayouts_frame (ringPoint : Nat → Nat → Vec2i) (nodes : List DummyNode) :
    ((layoutSimpleRaster nodes).length = nodes.length ∧
      (layoutSimpleRing ringPoint nodes).length = nodes.length) ∧
    (∀ (i : Nat) (d : DummyNode), nodes[i]? = some d →
      (∃ r, (layoutSimpleRaster nodes)[i]? = some r ∧ r.tokenId = d.tokenId ∧
        r.topLevelAncestorId = d.topLevelAncestorId ∧ r.subNodes = d.subNodes) ∧
      (∃ r, (layoutSimpleRing ringPoint nodes)[i]? = some r ∧ r.tokenId = d.tokenId ∧
        r.topLevelAncestorId = d.topLevelAncestorId ∧ r.subNodes = d.subNodes)) ∧
    (∀ nodes' : List DummyNode, nodes.map erasePosition = nodes'.map erasePosition →
      layoutSimpleRaster nodes = layoutSimpleRaster nodes' ∧
      layoutSimpleRing ringPoint nodes = layoutSimpleRing ringPoint nodes') ∧
    (layoutSimpleRaster (layoutSimpleRaster nodes) = layoutSimpleRaster nodes ∧
      layoutSimpleRing ringPoint (layoutSimpleRing ringPoint nodes) =
        layoutSimpleRing ringPoint nodes) := by
  have indep : ∀ a b : List DummyNode, a.map erasePosition = b.map erasePosition →
      layoutSimpleRaster a = layoutSimpleRaster b ∧
      layoutSimpleRing ringPoint a = layoutSimpleRing ringPoint b := by
    intro a b he
    have hlen : a.length = b.length := by
      have := congrArg List.length he
      simpa using this
    constructor
    · apply reposition_independent _ _ a b (rasterCell (ceilSqrt a.length))
        (layoutSimpleRaster_getElem? a) _ he
      rw [hlen]
      exact layoutSimpleRaster_getElem? b
    · apply reposition_independent _ _ a b (ringCell ringPoint a.length)
        (layoutSimpleRing_getElem? ringPoint a) _ he
      rw [hlen]
      exact layoutSimpleRing_getElem? ringPoint b
  refine ⟨⟨length_layoutSimpleRaster nodes, length_layoutSimpleRing ringPoint nodes⟩,
    ?_, indep nodes, ?_, ?_⟩
  · intro i d hd
    constructor
    · refine ⟨{ d with position := rasterCell (ceilSqrt nodes.length) i }, ?_, rfl, rfl, rfl⟩
      rw [layoutSimpleRaster_getElem?, hd]
      rfl
    · refine ⟨{ d with position := ringCell ringPoint nodes.length i }, ?_, rfl, rfl, rfl⟩
      rw [layoutSimpleRing_getElem?, hd]
      rfl
  · refine (indep (layoutSimpleRaster nodes) nodes ?_).1
    apply List.ext_getElem?
    intro i
    rw [List.getElem?_map, List.getElem?_map, layoutSimpleRaster_getElem?]
    cases nodes[i]? <;> rfl
  · refine (indep (layoutSimpleRing ringPoint nodes) nodes ?_).2
    apply List.ext_getElem?
    intro i
    rw [List.getElem?_map, List.getElem?_map, layoutSimpleRing_getElem?]
    cases nodes[i]? <;> rfl

/-- C16 on the three sample groups: after either layout the first node still
has tokenId 1 and its sub-node 11 still sits at (8, 8), and moving the top-level
nodes beforehand does not change the raster result. -/
theorem simpleLayouts_frame_witness :
    ((layoutSimpleRaster threeGroups)[0]?).map
      (fun d => (d.tokenId, d.subNodes.map DummyNode.position)) = some (1, [⟨8, 8⟩]) ∧
    ((layoutSimpleRing sampleRingPoint threeGroups)[0]?).map
      (fun d => (d.tokenId, d.subNodes.map DummyNode.position)) = some (1, [⟨8, 8⟩]) ∧
    layoutSimpleRaster threeGroups = layoutSimpleRaster (threeGroups.map erasePosition) ∧
    layoutSimpleRaster (layoutSimpleRaster threeGroups) = layoutSimpleRaster threeGroups :=
  ⟨by decide, by decide,
    ((simpleLayouts_frame sampleRingPoint threeGroups).2.2.1
      (threeGroups.map erasePosition) rfl).1,
    (simpleLayouts_frame sampleRingPoint threeGroups).2.2.2.1⟩

/-! ## Claims about the shape of the raster grid -/

/-- C18: the raster grid is square-ish. For every n ≥ 1, with w = ceil(sqrt(n)),
the rows used by layoutSimpleRaster are exactly the first `rows` rows, where
rows is w - 1 or w (never more than the number of columns), and every assigned
position lies in [0, 150 * (w - 1)] x [0, 150 * (w - 1)]. For n = 0 the result
is the empty list, and whenever the loop body runs (some i < n) the modulus w
of `i % w` is positive. -/
theorem layoutSimpleRaster_squareish (nodes : List DummyNode) :
    (1 ≤ nodes.length →
      ∃ rows : Nat,
        (rows = ceilSqrt nodes.length - 1 ∨ rows = ceilSqrt nodes.length) ∧
        (∀ y : Int, (∃ d ∈ layoutSimpleRaster nodes, d.position.y = y) ↔
          ∃ r : Nat, r < rows ∧ y = 150 * (r : Int)) ∧
        ∀ d ∈ layoutSimpleRaster nodes,
          (0 ≤ d.position.x ∧ d.position.x ≤ 150 * ((ceilSqrt nodes.length - 1 : Nat) : Int)) ∧
          (0 ≤ d.position.y ∧
            d.position.y ≤ 150 * ((ceilSqrt nodes.length - 1 : Nat) : Int))) ∧
    (nodes.length = 0 → layoutSimpleRaster nodes = []) ∧
    (∀ i, i < nodes.length → 0 < ceilSqrt nodes.length) := by
  refine ⟨?_, ?_, ?_⟩
  · intro hn
    have hw : 0 < ceilSqrt nodes.length := ceilSqrt_pos hn
    have hrows := raster_last_row nodes.length hn
    have hmem : ∀ d ∈ layoutSimpleRaster nodes, ∃ i, i < nodes.length ∧
        d.position = rasterCell (ceilSqrt nodes.length) i := by
      intro d hd
      obtain ⟨i, hi⟩ := List.mem_iff_getElem?.mp hd
      rw [layoutSimpleRaster_getElem?] at hi
      rcases hn' : nodes[i]? with _ | d0
      · rw [hn'] at hi; simp at hi
      · rw [hn'] at hi
        simp only [Option.map_some', Option.some.injEq] at hi
        have hlt : i < nodes.length := by
          by_contra hge
          have : nodes[i]? = none := by
            rw [List.getElem?_eq_none_iff]; omega
          rw [this] at hn'
          exact Option.noConfusion hn'
        exact ⟨i, hlt, by rw [← hi]⟩
    refine ⟨(nodes.length - 1) / ceilSqrt nodes.length + 1, hrows, ?_, ?_⟩
    · intro y
      constructor
      · rintro ⟨d, hd, hy⟩
        obtain ⟨i, hi, hpos⟩ := hmem d hd
        refine ⟨i / ceilSqrt nodes.length, ?_, ?_⟩
        · have := raster_row_le nodes.length i hi
          omega
        · rw [← hy, hpos]; rfl
      · rintro ⟨r, hr, hy⟩
        have hrq : r ≤ (nodes.length - 1) / ceilSqrt nodes.length := by omega
        have hmul : r * ceilSqrt nodes.length ≤ nodes.length - 1 :=
          (Nat.le_div_iff_mul_le hw).1 hrq
        have hlt : r * ceilSqrt nodes.length < nodes.length := by omega
        have hget := layoutSimpleRaster_getElem? nodes (r * ceilSqrt nodes.length)
        rw [List.getElem?_eq_getElem hlt] at hget
        refine ⟨_, List.mem_iff_getElem?.mpr ⟨_, hget⟩, ?_⟩
        rw [hy]
        show (rasterCell (ceilSqrt nodes.length) (r * ceilSqrt nodes.length)).y = _
        simp [rasterCell, Nat.mul_div_cancel _ hw]
    · intro d hd
      obtain ⟨i, hi, hpos⟩ := hmem d hd
      have hx : i % ceilSqrt nodes.length ≤ ceilSqrt nodes.length - 1 := by
        have := Nat.mod_lt i hw
        omega
      have hy : i / ceilSqrt nodes.length ≤ ceilSqrt nodes.length - 1 := by
        have := raster_row_le nodes.length i hi
        omega
      rw [hpos]
      unfold rasterCell
      simp only []
      generalize i % ceilSqrt nodes.length = a at hx
      generalize i / ceilSqrt nodes.length = b at hy
      refine ⟨⟨by omega, by omega⟩, ⟨by omega, by omega⟩⟩
  · intro h0
    have := length_layoutSimpleRaster nodes
    rw [h0] at this
    exact List.eq_nil_of_length_eq_zero this
  · intro i hi
    exact ceilSqrt_pos (by omega)

/-- C18 on five nodes: w = 3 and the rows used are the first w - 1 = 2, so
y = 150 is assigned and y = 300 is not. -/
theorem layoutSimpleRaster_squareish_witness :
    ceilSqrt fiveNodes.length = 3 ∧
    (layoutSimpleRaster fiveNodes).map (fun d => d.position.y) = [0, 0, 0, 150, 150] ∧
    ∃ rows : Nat,
      (rows = ceilSqrt fiveNodes.length - 1 ∨ rows = ceilSqrt fiveNodes.length) ∧
      (∀ y : Int, (∃ d ∈ layoutSimpleRaster fiveNodes, d.position.y = y) ↔
        ∃ r : Nat, r < rows ∧ y = 150 * (r : Int)) ∧
      ∀ d ∈ layoutSimpleRaster fiveNodes,
        (0 ≤ d.position.x ∧ d.position.x ≤ 150 * ((ceilSqrt fiveNodes.length - 1 : Nat) : Int)) ∧
        (0 ≤ d.position.y ∧
          d.position.y ≤ 150 * ((ceilSqrt fiveNodes.length - 1 : Nat) : Int)) :=
  ⟨by decide, by decide, (layoutSimpleRaster_squareish fiveNodes).1 (by decide)⟩

/-- C19: raster placement is injective. For every node list, layoutSimpleRaster
assigns distinct positions to nodes at distinct indices. -/
theorem layoutSimpleRaster_injective (nodes : List DummyNode) (i j : Nat)
    (hi : i < nodes.length) (hj : j < nodes.length) (hne : i ≠ j) :
    ((layoutSimpleRaster nodes)[i]?).map DummyNode.position ≠
      ((layoutSimpleRaster nodes)[j]?).map DummyNode.position := by
  rw [layoutSimpleRaster_getElem?, layoutSimpleRaster_getElem?,
    List.getElem?_eq_getElem hi, List.getElem?_eq_getElem hj]
  intro h
  simp only [Option.map_some', Option.some.injEq] at h
  exact hne (rasterCell_injective _ i j h)

/-- C19 on five nodes: indices 1 and 4 share the column x = 150 and still get
different positions, (150, 0) and (150, 150). -/
theorem layoutSimpleRaster_injective_witness :
    ((layoutSimpleRaster fiveNodes)[1]?).map DummyNode.position = some ⟨150, 0⟩ ∧
    ((layoutSimpleRaster fiveNodes)[4]?).map DummyNode.position = some ⟨150, 150⟩ ∧
    ((layoutSimpleRaster fiveNodes)[1]?).map DummyNode.position ≠
      ((layoutSimpleRaster fiveNodes)[4]?).map DummyNode.position :=
  ⟨by decide, by decide,
    layoutSimpleRaster_injective fiveNodes 1 4 (by decide) (by decide) (by decide)⟩

/-! ## Claims about the Laplacian: isolated groups, aggregation, linearity -/

/-- C13: if top-level node i has no inter-group edge (no edge whose endpoints
have different topLevelAncestorIds with one of them equal to node i's tokenId),
then row i and column i of the matrix returned by buildLaplacianMatrix are
entirely zero, the diagonal entry included. This needs no further assumption on
the input, so it holds in particular for every well-formed node/edge set. -/
theorem buildLaplacianMatrix_isolated_zero (dflt : DummyNode) (nodes : List DummyNode)
    (edges : List DummyEdge) (i : Nat) (hi : i < nodes.length)
    (hiso : isolatedGroup dflt nodes edges i) (j : Nat) (hj : j < nodes.length) :
    (buildLaplacianMatrix dflt nodes edges).getValue i j = 0 ∧
      (buildLaplacianMatrix dflt nodes edges).getValue j i = 0 := by
  have h : (buildLaplacianMatrix dflt nodes edges).getValue i j = 0 := by
    rw [buildLaplacianMatrix_getValue dflt nodes edges i j hi hj]
    split_ifs
    · exact storedTotal_zero_of_isolated dflt nodes edges i hiso _
    · rw [storedTotal_zero_of_isolated dflt nodes edges i hiso _, neg_zero, wrapInt_zero]
  exact ⟨h, (buildLaplacianMatrix_getValue_comm dflt nodes edges j i hj hi).trans h⟩

/-- C13 on five singleton groups with the single edge 1 - 2: group 3 (index 2)
is isolated, its row is zero, and the entry (0, 1) of the connected pair is
not. -/
theorem buildLaplacianMatrix_isolated_zero_witness :
    isolatedGroup zeroNode fiveNodes [⟨1, 2, 1⟩] 2 ∧
    (List.range 5).map
        (fun x => (buildLaplacianMatrix zeroNode fiveNodes [⟨1, 2, 1⟩]).getValue x 2) =
      [0, 0, 0, 0, 0] ∧
    (buildLaplacianMatrix zeroNode fiveNodes [⟨1, 2, 1⟩]).getValue 0 1 = -1 ∧
    (buildLaplacianMatrix zeroNode fiveNodes [⟨1, 2, 1⟩]).getValue 2 4 = 0 ∧
    (buildLaplacianMatrix zeroNode fiveNodes [⟨1, 2, 1⟩]).getValue 4 2 = 0 :=
  ⟨by decide, by decide, by decide,
    buildLaplacianMatrix_isolated_zero zeroNode fiveNodes [⟨1, 2, 1⟩] 2 (by decide)
      (by decide) 4 (by decide)⟩

/-- C14: hierarchical aggregation. For every well-formed node hierarchy (every
top-level node is its own topLevelAncestorId, tokenIds unique across the
flattened hierarchy, and every node's topLevelAncestorId the tokenId of a
top-level node, as the data model requires), replacing any edge (ownerId,
targetId, weight), where owner and target are nodes of the hierarchy nested at
any depth, by the edge (topLevelAncestorId of owner, topLevelAncestorId of
target, weight) leaves the matrix returned by buildLaplacianMatrix unchanged. -/
theorem buildLaplacianMatrix_lift_to_ancestors (dflt : DummyNode) (nodes : List DummyNode)
    (hself : selfAncestors nodes) (huniq : uniqueTokenIds nodes)
    (hanc : ancestorsAreTopLevel nodes)
    (before after : List DummyEdge) (owner target : DummyNode)
    (ho : owner ∈ flattenList nodes) (ht : target ∈ flattenList nodes) (weight : Int) :
    buildLaplacianMatrix dflt nodes
        (before ++ ⟨owner.tokenId, target.tokenId, weight⟩ :: after) =
      buildLaplacianMatrix dflt nodes
        (before ++ ⟨owner.topLevelAncestorId, target.topLevelAncestorId, weight⟩ :: after) := by
  have eo1 := ancestorOf_of_nodup dflt nodes huniq owner ho
  have et1 := ancestorOf_of_nodup dflt nodes huniq target ht
  have eo2 := ancestorOf_topLevel dflt nodes hself huniq _ (hanc owner ho)
  have et2 := ancestorOf_topLevel dflt nodes hself huniq _ (hanc target ht)
  rw [buildLaplacianMatrix_eq, buildLaplacianMatrix_eq]
  congr 1
  funext k
  unfold storedTotal
  congr 1
  rw [groupWeight_append, groupWeight_append, groupWeight_cons, groupWeight_cons,
    edgeContribution_congr (ancestorOf dflt nodes)
      ⟨owner.tokenId, target.tokenId, weight⟩
      ⟨owner.topLevelAncestorId, target.topLevelAncestorId, weight⟩
      (eo1.trans eo2.symm) (et1.trans et2.symm) rfl k]

/-- C14 on the three sample groups: the edge from the innermost node 111 to the
top-level node 2 may be replaced by the edge from group 1 to group 2; the
entry (0, 1) is -5 either way. -/
theorem buildLaplacianMatrix_lift_to_ancestors_witness :
    selfAncestors threeGroups ∧ uniqueTokenIds threeGroups ∧
    ancestorsAreTopLevel threeGroups ∧
    (buildLaplacianMatrix zeroNode threeGroups
      ([] ++ ⟨1, 2, 5⟩ :: [⟨2, 3, 1⟩, ⟨3, 11, 2⟩])).getValue 0 1 = -5 ∧
    buildLaplacianMatrix zeroNode threeGroups
        ([] ++ ⟨innermostNode.tokenId, (leafNode 2).tokenId, 5⟩ :: [⟨2, 3, 1⟩, ⟨3, 11, 2⟩]) =
      buildLaplacianMatrix zeroNode threeGroups
        ([] ++ ⟨innermostNode.topLevelAncestorId, (leafNode 2).topLevelAncestorId, 5⟩ ::
          [⟨2, 3, 1⟩, ⟨3, 11, 2⟩]) :=
  ⟨by decide, by decide, by decide, by decide,
    buildLaplacianMatrix_lift_to_ancestors zeroNode threeGroups (by decide) (by decide)
      (by decide) [] [⟨2, 3, 1⟩, ⟨3, 11, 2⟩] innermostNode (leafNode 2)
      (List.Mem.tail _ (List.Mem.tail _ (List.Mem.head _)))
      (List.Mem.tail _ (List.Mem.tail _ (List.Mem.tail _ (List.Mem.head _)))) 5⟩

/-- C20 as stated fails: with the edge lists E1 = E2 = [(1, 2, 2^30)] of
non-negative weights on two singleton groups, entry (0, 0) for E1 ++ E2 is the
wrapped `int` total -2^31, which is neither the sum 2^31 of the entries for E1
and E2 nor non-negative. -/
theorem buildLaplacianMatrix_linear_overflow :
    (∀ e ∈ ([⟨1, 2, 1073741824⟩] ++ [⟨1, 2, 1073741824⟩] : List DummyEdge), 0 ≤ e.weight) ∧
    (buildLaplacianMatrix zeroNode twoNodes [⟨1, 2, 1073741824⟩]).getValue 0 0 =
      1073741824 ∧
    (buildLaplacianMatrix zeroNode twoNodes
      ([⟨1, 2, 1073741824⟩] ++ [⟨1, 2, 1073741824⟩])).getValue 0 0 = -2147483648 ∧
    (buildLaplacianMatrix zeroNode twoNodes
      ([⟨1, 2, 1073741824⟩] ++ [⟨1, 2, 1073741824⟩])).getValue 0 0 ≠
      (buildLaplacianMatrix zeroNode twoNodes [⟨1, 2, 1073741824⟩]).getValue 0 0 +
        (buildLaplacianMatrix zeroNode twoNodes [⟨1, 2, 1073741824⟩]).getValue 0 0 ∧
    ¬ 0 ≤ (buildLaplacianMatrix zeroNode twoNodes
      ([⟨1, 2, 1073741824⟩] ++ [⟨1, 2, 1073741824⟩])).getValue 0 0 := by
  refine ⟨by decide, by decide, by decide, by decide, by decide⟩

/-- C20, amended: weight accumulation is linear and order-independent. For a
fixed node list and edge lists E1, E2 whose weights in E1 ++ E2 have absolute
values summing to less than 2^31 (so that no `int` total overflows), every
entry of buildLaplacianMatrix(nodes, E1 ++ E2) is the sum of the entries of
buildLaplacianMatrix(nodes, E1) and buildLaplacianMatrix(nodes, E2); for every
edge list the result is the same for every permutation of it; and for
non-negative weights summing to less than 2^31 every diagonal entry is ≥ 0 and
every off-diagonal entry is ≤ 0. -/
theorem buildLaplacianMatrix_linear (dflt : DummyNode) (nodes : List DummyNode)
    (edges1 edges2 : List DummyEdge) :
    (weightsFitInt (edges1 ++ edges2) →
      ∀ i j, i < nodes.length → j < nodes.length →
        (buildLaplacianMatrix dflt nodes (edges1 ++ edges2)).getValue i j =
          (buildLaplacianMatrix dflt nodes edges1).getValue i j +
            (buildLaplacianMatrix dflt nodes edges2).getValue i j) ∧
    (∀ permuted : List DummyEdge, edges1.Perm permuted →
      buildLaplacianMatrix dflt nodes permuted = buildLaplacianMatrix dflt nodes edges1) ∧
    ((∀ e ∈ edges1, 0 ≤ e.weight) → weightsFitInt edges1 →
      ∀ i j, i < nodes.length → j < nodes.length →
        (i = j → 0 ≤ (buildLaplacianMatrix dflt nodes edges1).getValue i j) ∧
        (i ≠ j → (buildLaplacianMatrix dflt nodes edges1).getValue i j ≤ 0)) := by
  refine ⟨?_, ?_, ?_⟩
  · intro hfit i j hi hj
    have hsplit : (edges1.map (fun e => e.weight.natAbs)).sum +
        (edges2.map (fun e => e.weight.natAbs)).sum < 2147483648 := by
      unfold weightsFitInt at hfit
      rwa [List.map_append, List.sum_append] at hfit
    have hfit1 : weightsFitInt edges1 := by
      unfold weightsFitInt; omega
    have hfit2 : weightsFitInt edges2 := by
      unfold weightsFitInt; omega
    rw [buildLaplacianMatrix_getValue_of_fit dflt nodes _ hfit i j hi hj,
      buildLaplacianMatrix_getValue_of_fit dflt nodes _ hfit1 i j hi hj,
      buildLaplacianMatrix_getValue_of_fit dflt nodes _ hfit2 i j hi hj]
    split_ifs
    · exact groupWeight_append dflt nodes edges1 edges2 _
    · rw [groupWeight_append]; ring
  · intro permuted hp
    rw [buildLaplacianMatrix_eq, buildLaplacianMatrix_eq]
    congr 1
    funext k
    unfold storedTotal
    rw [groupWeight_perm dflt nodes edges1 permuted hp k]
  · intro hw hfit i j hi hj
    rw [buildLaplacianMatrix_getValue_of_fit dflt nodes _ hfit i j hi hj]
    constructor
    · intro hij
      rw [if_pos hij]
      exact groupWeight_nonneg dflt nodes edges1 hw _
    · intro hij
      rw [if_neg hij]
      have := groupWeight_nonneg dflt nodes edges1 hw
        (tokenIdAt nodes i, tokenIdAt nodes j)
      omega

/-- C20, amended, on the three sample groups: the weights fit, the entry (0, 1)
of the whole edge list, -5, is the sum of the entries for its first edge and
for the other two, and reversing the edge list gives the same matrix. -/
theorem buildLaplacianMatrix_linear_witness :
    weightsFitInt ([⟨111, 2, 5⟩] ++ [⟨2, 3, 1⟩, ⟨3, 11, 2⟩]) ∧
    (buildLaplacianMatrix zeroNode threeGroups ([⟨111, 2, 5⟩] ++ [⟨2, 3, 1⟩, ⟨3, 11, 2⟩])).getValue
        0 1 = -5 ∧
    (buildLaplacianMatrix zeroNode threeGroups ([⟨111, 2, 5⟩] ++ [⟨2, 3, 1⟩, ⟨3, 11, 2⟩])).getValue
        0 1 =
      (buildLaplacianMatrix zeroNode threeGroups [⟨111, 2, 5⟩]).getValue 0 1 +
        (buildLaplacianMatrix zeroNode threeGroups [⟨2, 3, 1⟩, ⟨3, 11, 2⟩]).getValue 0 1 ∧
    buildLaplacianMatrix zeroNode threeGroups threeGroupsEdges.reverse =
      buildLaplacianMatrix zeroNode threeGroups threeGroupsEdges ∧
    0 ≤ (buildLaplacianMatrix zeroNode threeGroups threeGroupsEdges).getValue 1 1 :=
  ⟨by decide, by decide,
    (buildLaplacianMatrix_linear zeroNode threeGroups [⟨111, 2, 5⟩]
      [⟨2, 3, 1⟩, ⟨3, 11, 2⟩]).1 (by decide) 0 1 (by decide) (by decide),
    (buildLaplacianMatrix_linear zeroNode threeGroups threeGroupsEdges []).2.1 _
      (List.reverse_perm threeGroupsEdges).symm,
    ((buildLaplacianMatrix_linear zeroNode threeGroups threeGroupsEdges []).2.2 (by decide)
      (by decide) 1 1 (by decide) (by decide)).1 rfl⟩

/-! ## Claims about the two-node spectral case -/

/-- C17: two-node spectral case. Under the contract of the eigen-solver (its
eigenvectors and eigenvalues have the dimension of the Laplacian): for every
node list with exactly 2 top-level nodes whose Laplacian has no zero diagonal
entry, layoutSpectralPrototype returns the node list unchanged, because the
selection is guarded by "at least 3 components"; the guard holds exactly for at
least 3 nodes; and whenever it holds the ranked vector has at least 3 entries,
so that eigenValues[size - 2] and eigenValues[size - 3] are within bounds. -/
theorem layoutSpectralPrototype_two_nodes (num : Numerics) (dflt : DummyNode)
    (nodes : List DummyNode) (edges : List DummyEdge)
    (hfit : eigenDimensionsMatch num (buildLaplacianMatrix dflt nodes edges)) :
    (nodes.length = 2 →
      (∀ i, i < 2 → (buildLaplacianMatrix dflt nodes edges).getValue i i ≠ 0) →
      layoutSpectralPrototype num dflt nodes edges = some nodes) ∧
    ((0 < (collectEigenVectors (num.solve (buildLaplacianMatrix dflt nodes edges))).length ∧
      3 ≤ ((collectEigenVectors
        (num.solve (buildLaplacianMatrix dflt nodes edges))).headD []).length) ↔
      3 ≤ nodes.length) ∧
    (3 ≤ nodes.length →
      3 ≤ (stdSort compareEigenvaluePairs (collectEigenValues
        (num.solve (buildLaplacianMatrix dflt nodes edges)))).length ∧
      ∃ xIdx yIdx,
        selectedAxes (num.solve (buildLaplacianMatrix dflt nodes edges)) =
          some (xIdx, yIdx)) := by
  have hguard := guard_iff num dflt nodes edges hfit
  refine ⟨?_, hguard, ?_⟩
  · intro h2 hdiag
    unfold layoutSpectralPrototype
    rw [if_neg (by omega)]
    simp only []
    have hany : (List.range (buildLaplacianMatrix dflt nodes edges).columnsCount).any
        (fun i => (buildLaplacianMatrix dflt nodes edges).getValue i i == 0) = false := by
      rw [List.any_eq_false]
      intro i hi
      rw [List.mem_range, columnsCount_buildLaplacianMatrix, h2] at hi
      simpa using hdiag i hi
    rw [hany]
    have hng : ¬ (0 < (collectEigenVectors
        (num.solve (buildLaplacianMatrix dflt nodes edges))).length ∧
      3 ≤ ((collectEigenVectors
        (num.solve (buildLaplacianMatrix dflt nodes edges))).headD []).length) := by
      rw [hguard]; omega
    simp only [Bool.false_eq_true, if_false]
    rw [if_neg hng]
  · intro h3
    have hlen : (stdSort compareEigenvaluePairs (collectEigenValues
        (num.solve (buildLaplacianMatrix dflt nodes edges)))).length = nodes.length := by
      rw [length_ranked, hfit.2.2, columnsCount_buildLaplacianMatrix]
    refine ⟨by omega, ?_⟩
    unfold selectedAxes
    exact selectAxes_isSome _ (by omega)

/-- C17 on two singleton groups joined by an edge of weight 5: the solver's
contract holds, the diagonal is 5, 5, and the layout returns the two nodes at
their old positions (7, 7). -/
theorem layoutSpectralPrototype_two_nodes_witness :
    eigenDimensionsMatch fittingNumerics (buildLaplacianMatrix zeroNode twoNodes [⟨1, 2, 5⟩]) ∧
    (List.range 2).map
        (fun i => (buildLaplacianMatrix zeroNode twoNodes [⟨1, 2, 5⟩]).getValue i i) = [5, 5] ∧
    layoutSpectralPrototype fittingNumerics zeroNode twoNodes [⟨1, 2, 5⟩] = some twoNodes ∧
    twoNodes.map DummyNode.position = [⟨7, 7⟩, ⟨7, 7⟩] :=
  ⟨by decide, by decide,
    (layoutSpectralPrototype_two_nodes fittingNumerics zeroNode twoNodes [⟨1, 2, 5⟩]
      (by decide)).1 (by decide) (by decide),
    by decide⟩


end GraphLayouter
